import Mathlib

/-!
# GBADoom: the span/column drawing functions (`source/r_draw.iwram.c`)

A shallow embedding of `R_DrawColumn`, `R_DrawFuzzColumn`,
`R_DrawTranslatedColumn` and `R_DrawSpan`, and theorems about what they write
to the frame buffer.

Conventions of the embedding.

* `int` and `fixed_t` values are integers; the result of every `int`
  operation of the source is reduced to the signed 32-bit range (`wrap32`).
  Bit operations are done on the unsigned 32-bit reading (`toU32`).
* Pointers into the frame buffer are offsets, counted in `unsigned short`
  units, from `_g->drawvars.byte_topleft`.  Adding an `int` to a pointer is
  exact; the `int` product `yl * byte_pitch` in a start address is an `int`
  operation like any other and is reduced by `wrap32`.
* The frame buffer is a function from offsets to 16-bit units.  Every store
  is also appended to a log, so that the stores of one call can be counted.
* Byte tables (`source`, `colormap`, `translation`, `fullcolormap`) are
  functions from an index to the value stored there.
-/

namespace GBADoom

/-! ## Machine integers -/

/-- Reduction of an integer to the signed 32-bit range (the value an `int`
holds after an operation, two's complement). -/
def wrap32 (v : Int) : Int := (v + 2147483648) % 4294967296 - 2147483648

/-- The unsigned 32-bit reading of an integer. -/
def toU32 (v : Int) : Nat := (v % 4294967296).toNat

/-- Membership in the range of `int`. -/
def isInt32 (v : Int) : Prop := -2147483648 ≤ v ∧ v < 2147483648

instance (v : Int) : Decidable (isInt32 v) := by
  unfold isInt32; infer_instance

/-- `FRACBITS` of `m_fixed.h` (the header is not part of `source/r_draw.iwram.c`):
the number of fractional bits of a `fixed_t`. -/
def FRACBITS : Nat := 16

/-- `FUZZTABLE` of `r_draw.h`: the length of `fuzzoffset`. -/
def FUZZTABLE : Int := 50

/-! ## Data model -/

/-- The fields of `draw_column_vars_t` the drawers read. -/
structure draw_column_vars_t where
  x : Int
  yl : Int
  yh : Int
  z : Int
  iscale : Int
  texturemid : Int
  source : Int → Nat
  colormap : Nat → Nat
  translation : Nat → Nat

/-- The fields of `draw_span_vars_t`. -/
structure draw_span_vars_t where
  y : Int
  x1 : Int
  x2 : Int
  xfrac : Int
  yfrac : Int
  xstep : Int
  ystep : Int
  source : Nat → Nat
  colormap : Nat → Nat

/-- What the drawers read and never write: the constant `SCREENWIDTH`
(`doomdef.h`), the row stride `_g->drawvars.byte_pitch`, `centery`,
`viewheight` and the table `_g->fullcolormap`. -/
structure Env where
  SCREENWIDTH : Int
  byte_pitch : Int
  centery : Int
  viewheight : Int
  fullcolormap : Nat → Nat

/-- What the drawers write: the frame buffer (offset from `byte_topleft` to
16-bit unit), `_g->fuzzpos`, and the log of the stores done so far (oldest
first), each as (offset, unit). -/
structure Machine where
  fb : Int → Nat
  fuzzpos : Int
  writes : List (Int × Nat)

/-- The store `*dest = v`. -/
def Machine.store (m : Machine) (dest : Int) (v : Nat) : Machine :=
  { m with
    fb := fun a => if a = dest then v else m.fb a
    writes := m.writes ++ [(dest, v)] }

/-- The unit stored for a looked-up colour: `unsigned short color = c;`
then `(color | (color << 8))` converted to `unsigned short`. -/
def pack (c : Nat) : Nat :=
  let color := c % 65536
  (color ||| (color <<< 8)) % 65536

/-- The loop `do body while (count--)` for a 32-bit `count`.  The body runs
first; then the old value of the counter is tested against zero and the counter
is decremented, wrapping in 32 bits.  The test fails when the value tested is 0,
that is after as many passing tests as the unsigned reading of `count` on
entry: the argument `n` is that reading (`toU32 count`), and the body runs
`n + 1` times.  For `count >= 0` this is `count + 1`; for `count < 0` it is
`2^32 + count + 1`. -/
def doWhileCount {σ : Type} (body : σ → σ) : Nat → σ → σ
  | 0, s => body s
  | n + 1, s => doWhileCount body n (body s)

/-! ## R_DrawColumn -/

/-- Local variables of the column loops. -/
structure ColumnLoop where
  dest : Int
  frac : Int
  m : Machine

/-- The index `(frac>>FRACBITS)&127` into `source`. -/
def columnTexel (frac : Int) : Nat := toU32 (frac >>> FRACBITS) &&& 127

/-- Body of the loop of `R_DrawColumn`. -/
def R_DrawColumn_body (g : Env) (dcvars : draw_column_vars_t)
    (s : ColumnLoop) : ColumnLoop :=
  let color := dcvars.colormap (dcvars.source (columnTexel s.frac))
  { dest := s.dest + g.SCREENWIDTH
    frac := wrap32 (s.frac + dcvars.iscale)
    m := s.m.store s.dest (pack color) }

/-- The function `R_DrawColumn`. -/
def R_DrawColumn (g : Env) (dcvars : draw_column_vars_t) (m : Machine) : Machine :=
  let count := wrap32 (dcvars.yh - dcvars.yl)
  let dest := wrap32 (dcvars.yl * g.byte_pitch) + dcvars.x
  let fracstep := dcvars.iscale
  let frac := wrap32 (dcvars.texturemid + wrap32 (wrap32 (dcvars.yl - g.centery) * fracstep))
  if dcvars.yl ≥ dcvars.yh then m
  else (doWhileCount (R_DrawColumn_body g dcvars) (toU32 count) ⟨dest, frac, m⟩).m

/-! ## R_DrawFuzzColumn -/

/-- The table `fuzzoffset`, with `FUZZOFF` as argument. -/
def fuzzoffsetTable (FUZZOFF : Int) : List Int :=
  [FUZZOFF, -FUZZOFF, FUZZOFF, -FUZZOFF, FUZZOFF, FUZZOFF, -FUZZOFF,
   FUZZOFF, FUZZOFF, -FUZZOFF, FUZZOFF, FUZZOFF, FUZZOFF, -FUZZOFF,
   FUZZOFF, FUZZOFF, FUZZOFF, -FUZZOFF, -FUZZOFF, -FUZZOFF, -FUZZOFF,
   FUZZOFF, -FUZZOFF, -FUZZOFF, FUZZOFF, FUZZOFF, FUZZOFF, FUZZOFF, -FUZZOFF,
   FUZZOFF, -FUZZOFF, FUZZOFF, FUZZOFF, -FUZZOFF, -FUZZOFF, FUZZOFF,
   FUZZOFF, -FUZZOFF, -FUZZOFF, -FUZZOFF, -FUZZOFF, FUZZOFF, FUZZOFF,
   FUZZOFF, FUZZOFF, -FUZZOFF, FUZZOFF, FUZZOFF, -FUZZOFF, FUZZOFF]

/-- The read `fuzzoffset[i]`, with `FUZZOFF = SCREENWIDTH`.  An index outside
the table (undefined in C) reads 0. -/
def fuzzoffset (g : Env) (i : Int) : Int :=
  if 0 ≤ i then (fuzzoffsetTable g.SCREENWIDTH).getD i.toNat 0 else 0

/-- Body of the loop of `R_DrawFuzzColumn`. -/
def R_DrawFuzzColumn_body (g : Env) (dcvars : draw_column_vars_t)
    (s : ColumnLoop) : ColumnLoop :=
  let srcpxl := (s.m.fb (s.dest + fuzzoffset g s.m.fuzzpos) &&& 0xff) % 256
  let color := g.fullcolormap (6 * 256 + srcpxl)
  let m1 := s.m.store s.dest (pack color)
  let pos := wrap32 (m1.fuzzpos + 1)
  let m2 := { m1 with fuzzpos := if pos = FUZZTABLE then 0 else pos }
  { dest := s.dest + g.SCREENWIDTH
    frac := wrap32 (s.frac + dcvars.iscale)
    m := m2 }

/-- The function `R_DrawFuzzColumn`. -/
def R_DrawFuzzColumn (g : Env) (dcvars : draw_column_vars_t) (m : Machine) : Machine :=
  let dc_yl := if dcvars.yl = 0 then 1 else dcvars.yl
  let dc_yh := if dcvars.yh = wrap32 (g.viewheight - 1) then wrap32 (g.viewheight - 2)
    else dcvars.yh
  let count := wrap32 (dc_yh - dc_yl)
  if dc_yl ≥ dc_yh then m
  else
    let dest := wrap32 (dcvars.yl * g.byte_pitch) + dcvars.x
    let fracstep := dcvars.iscale
    let frac := wrap32 (dcvars.texturemid + wrap32 (wrap32 (dc_yl - g.centery) * fracstep))
    (doWhileCount (R_DrawFuzzColumn_body g dcvars) (toU32 count) ⟨dest, frac, m⟩).m

/-! ## R_DrawTranslatedColumn -/

/-- Body of the loop of `R_DrawTranslatedColumn`; `sw` is the local
`const unsigned int sw = SCREENWIDTH`. -/
def R_DrawTranslatedColumn_body (g : Env) (dcvars : draw_column_vars_t)
    (s : ColumnLoop) : ColumnLoop :=
  let color := dcvars.colormap (dcvars.translation (dcvars.source (s.frac >>> FRACBITS)))
  { dest := s.dest + g.SCREENWIDTH
    frac := wrap32 (s.frac + dcvars.iscale)
    m := s.m.store s.dest (pack color) }

/-- The function `R_DrawTranslatedColumn`. -/
def R_DrawTranslatedColumn (g : Env) (dcvars : draw_column_vars_t) (m : Machine) :
    Machine :=
  let count := wrap32 (dcvars.yh - dcvars.yl)
  let dest := wrap32 (dcvars.yl * g.byte_pitch) + dcvars.x
  let fracstep := dcvars.iscale
  let frac := wrap32 (dcvars.texturemid + wrap32 (wrap32 (dcvars.yl - g.centery) * fracstep))
  if dcvars.yl ≥ dcvars.yh then m
  else (doWhileCount (R_DrawTranslatedColumn_body g dcvars) (toU32 count) ⟨dest, frac, m⟩).m

/-! ## R_DrawSpan -/

/-- Local variables of the span loop. -/
structure SpanLoop where
  dest : Int
  position : Nat
  m : Machine

/-- The packing `((f << 10) & 0xffff0000) | ((f2 >> 6) & 0x0000ffff)` of two
`fixed_t` values into one `unsigned int`. -/
def packUV (xf yf : Int) : Nat :=
  (toU32 (xf * 1024) &&& 0xffff0000) ||| (toU32 (yf >>> (6 : Nat)) &&& 0x0000ffff)

/-- The texel index `spot` of a position word. -/
def spanSpot (position : Nat) : Nat :=
  let ytemp := (position >>> 4) &&& 0x0fc0
  let xtemp := position >>> 26
  xtemp ||| ytemp

/-- Body of the loop of `R_DrawSpan`. -/
def R_DrawSpan_body (dsvars : draw_span_vars_t) (step : Nat) (s : SpanLoop) : SpanLoop :=
  let spot := spanSpot s.position
  let color := dsvars.colormap (dsvars.source spot)
  { dest := s.dest + 1
    position := (s.position + step) % 4294967296
    m := s.m.store s.dest (pack color) }

/-- The function `R_DrawSpan`. -/
def R_DrawSpan (g : Env) (dsvars : draw_span_vars_t) (m : Machine) : Machine :=
  let count := wrap32 (dsvars.x2 - dsvars.x1)
  let dest := wrap32 (dsvars.y * g.byte_pitch) + dsvars.x1
  let step := packUV dsvars.xstep dsvars.ystep
  let position := packUV dsvars.xfrac dsvars.yfrac
  (doWhileCount (R_DrawSpan_body dsvars step) (toU32 count) ⟨dest, position, m⟩).m

/-! ## Auxiliary definitions for the statements -/

/-- The frame buffer after a list of stores, oldest first. -/
def replay (fb : Int → Nat) (ws : List (Int × Nat)) : Int → Nat :=
  ws.foldl (fun f w a => if a = w.1 then w.2 else f a) fb

/-- A loop body that stores `val frac` at `dest`, moves `dest` by `stride` and
adds `fracstep` to `frac`: the common shape of the bodies of `R_DrawColumn`
and `R_DrawTranslatedColumn`. -/
def columnStep (stride fracstep : Int) (val : Int → Nat) (s : ColumnLoop) : ColumnLoop :=
  { dest := s.dest + stride
    frac := wrap32 (s.frac + fracstep)
    m := s.m.store s.dest (val s.frac) }

/-- The stores of the first `n` iterations of `columnStep` started at offset
`d` with `frac = wrap32 f0`. -/
def columnWrites (stride fracstep : Int) (val : Int → Nat) (d f0 : Int) (n : Nat) :
    List (Int × Nat) :=
  (List.range n).map fun (k : Nat) => (d + (k : Int) * stride, val (wrap32 (f0 + (k : Int) * fracstep)))

/-- The unit `R_DrawColumn` stores when the accumulator is `frac`. -/
def columnUnit (dcvars : draw_column_vars_t) (frac : Int) : Nat :=
  pack (dcvars.colormap (dcvars.source (columnTexel frac)))

/-- The unit `R_DrawTranslatedColumn` stores when the accumulator is `frac`. -/
def translatedUnit (dcvars : draw_column_vars_t) (frac : Int) : Nat :=
  pack (dcvars.colormap (dcvars.translation (dcvars.source (frac >>> FRACBITS))))

/-- The accumulator `frac` of the column drawers before pixel `k`, in closed
form: `texturemid + (yl - centery + k) * iscale` in 32-bit arithmetic. -/
def fracAt (g : Env) (dcvars : draw_column_vars_t) (k : Nat) : Int :=
  wrap32 (dcvars.texturemid + (dcvars.yl - g.centery + k) * dcvars.iscale)

/-- The stores of a call that the log did not hold before it. -/
def newWrites (before after : Machine) : List (Int × Nat) :=
  after.writes.drop before.writes.length

/-- A machine with an all-zero frame buffer and an empty log. -/
def blank : Machine := ⟨fun _ => 0, 0, []⟩

/-- The identity table. -/
def identityMap : Nat → Nat := fun i => i

/-- A 128-byte ramp, repeated: `source[i] = i mod 128`. -/
def ramp128 : Int → Nat := fun i => (i % 128).toNat

/-- A view of 120 units by 160 rows whose row stride is `SCREENWIDTH`. -/
def env120 : Env := ⟨120, 120, 80, 160, identityMap⟩

/-- The column of the scenario `x=10, yTop=5, yBottom=8, iscale=1<<FRACBITS,
textureMid=0` with a ramp texture and the identity colormap. -/
def scenarioColumn : draw_column_vars_t :=
  ⟨10, 5, 8, 0, 65536, 0, ramp128, identityMap, identityMap⟩

/-- A view whose row stride (128) differs from `SCREENWIDTH` (120). -/
def envPitch128 : Env := ⟨120, 128, 80, 160, identityMap⟩

/-- The position word of `R_DrawSpan` before pixel `k`, in closed form. -/
def spanPosition (p0 step k : Nat) : Nat := (p0 + k * step) % 4294967296

/-- The unit `R_DrawSpan` stores when the position word is `position`. -/
def spanUnit (dsvars : draw_span_vars_t) (position : Nat) : Nat :=
  pack (dsvars.colormap (dsvars.source (spanSpot position)))

/-- The stores of the first `n` iterations of the loop of `R_DrawSpan` started
at offset `d` with position word `p0`. -/
def spanWrites (dsvars : draw_span_vars_t) (d : Int) (p0 step n : Nat) : List (Int × Nat) :=
  (List.range n).map fun (k : Nat) => (d + (k : Int), spanUnit dsvars (spanPosition p0 step k))

/-- The texel index `((xfrac >> 16) & 63) | (((yfrac >> 16) & 63) << 6)`. -/
def spot0 (xfrac yfrac : Int) : Nat :=
  (toU32 (xfrac >>> (16 : Nat)) &&& 63) ||| ((toU32 (yfrac >>> (16 : Nat)) &&& 63) <<< 6)

/-- A 64 by 64 tile holding at each index the low byte of the index. -/
def tileRamp : Nat → Nat := fun i => i % 256

/-- The span of the scenario `y=0, xStart=0, xEnd=63, uFrac=0, vFrac=0,
uStep = 1 texel per pixel, vStep=0`. -/
def scenarioSpan : draw_span_vars_t :=
  ⟨0, 0, 63, 0, 0, 65536, 0, tileRamp, identityMap⟩

/-- A 16-bit unit whose low byte equals its high byte. -/
def replicated (unit : Nat) : Prop := unit &&& 0xFF = unit >>> 8

/-- The log of `s` extends the log of `m` by replicated units only. -/
def onlyReplicated (m s : Machine) : Prop :=
  ∃ ws : List (Int × Nat), s.writes = m.writes ++ ws ∧ ∀ w ∈ ws, replicated w.2

/-- The view `env120` with a `fullcolormap` of bytes. -/
def byteEnv : Env := ⟨120, 120, 80, 160, tileRamp⟩

/-- The scenario column with a colormap of bytes. -/
def byteColumn : draw_column_vars_t := { scenarioColumn with colormap := tileRamp }

/-- The scenario span with a colormap of bytes. -/
def byteSpan : draw_span_vars_t := { scenarioSpan with colormap := tileRamp }

/-- A span of 64 pixels whose steps are both 0 and whose start is texel
(3, 2): `xfrac = 3 << 16`, `yfrac = 2 << 16`. -/
def stillSpan : draw_span_vars_t :=
  ⟨0, 0, 63, 196608, 131072, 0, 0, tileRamp, identityMap⟩

/-! ## Auxiliary definitions for R_DrawFuzzColumn -/

/-- The clamped first row `dc_yl` of `R_DrawFuzzColumn`. -/
def fuzz_dc_yl (dcvars : draw_column_vars_t) : Int :=
  if dcvars.yl = 0 then 1 else dcvars.yl

/-- The clamped last row `dc_yh` of `R_DrawFuzzColumn`. -/
def fuzz_dc_yh (g : Env) (dcvars : draw_column_vars_t) : Int :=
  if dcvars.yh = wrap32 (g.viewheight - 1) then wrap32 (g.viewheight - 2) else dcvars.yh

/-- The update of `_g->fuzzpos` in the loop of `R_DrawFuzzColumn`:
`if (++_g->fuzzpos == FUZZTABLE) _g->fuzzpos = 0;`. -/
def fuzzNext (p : Int) : Int :=
  if wrap32 (p + 1) = FUZZTABLE then 0 else wrap32 (p + 1)

/-- The unit `R_DrawFuzzColumn` stores at `dest` when the frame buffer is `fb`
and the fuzz position is `pos`. -/
def fuzzUnit (g : Env) (fb : Int → Nat) (dest pos : Int) : Nat :=
  pack (g.fullcolormap (6 * 256 + (fb (dest + fuzzoffset g pos) &&& 0xff) % 256))

/-- The stores of the first `n` iterations of the loop of `R_DrawFuzzColumn`
started at offset `d` on the frame buffer `fb` with fuzz position `p`: each
store reads the frame buffer as the earlier stores of the run left it. -/
def fuzzWrites (g : Env) (fb : Int → Nat) (d p : Int) : Nat → List (Int × Nat)
  | 0 => []
  | n + 1 =>
    fuzzWrites g fb d p n ++
      [(d + (n : Int) * g.SCREENWIDTH,
        fuzzUnit g (replay fb (fuzzWrites g fb d p n)) (d + (n : Int) * g.SCREENWIDTH)
          (fuzzNext^[n] p))]

/-- The frame buffer addresses `dest + fuzzoffset[_g->fuzzpos]` that a call of
`R_DrawFuzzColumn` reads, in order: the `k`-th is the address read by the loop
body in the state reached after `k` iterations. -/
def R_DrawFuzzColumn_reads (g : Env) (dcvars : draw_column_vars_t) (m : Machine) :
    List Int :=
  let dc_yl := if dcvars.yl = 0 then 1 else dcvars.yl
  let dc_yh := if dcvars.yh = wrap32 (g.viewheight - 1) then wrap32 (g.viewheight - 2)
    else dcvars.yh
  let count := wrap32 (dc_yh - dc_yl)
  if dc_yl ≥ dc_yh then []
  else
    let dest := wrap32 (dcvars.yl * g.byte_pitch) + dcvars.x
    let fracstep := dcvars.iscale
    let frac := wrap32 (dcvars.texturemid + wrap32 (wrap32 (dc_yl - g.centery) * fracstep))
    (List.range (toU32 count + 1)).map fun (k : Nat) =>
      ((R_DrawFuzzColumn_body g dcvars)^[k] ⟨dest, frac, m⟩).dest +
        fuzzoffset g ((R_DrawFuzzColumn_body g dcvars)^[k] ⟨dest, frac, m⟩).m.fuzzpos

/-- A sequence of calls of `R_DrawFuzzColumn`, one per parameter block, on the
same machine. -/
def drawFuzzColumns (g : Env) (dcs : List draw_column_vars_t) (m : Machine) : Machine :=
  dcs.foldl (fun m dc => R_DrawFuzzColumn g dc m) m

/-- A machine whose frame buffer holds 7 in every cell. -/
def grey : Machine := ⟨fun _ => 7, 0, []⟩

/-- A fuzz column that starts at the top row: `x = 10`, `yl = 0`, `yh = 3`. -/
def fuzzTopColumn : draw_column_vars_t :=
  ⟨10, 0, 3, 0, 65536, 0, ramp128, tileRamp, identityMap⟩

/-- A fuzz column that ends at the bottom row of `env120`/`byteEnv`
(`viewheight = 160`): `x = 10`, `yl = 156`, `yh = 159`. -/
def fuzzBottomColumn : draw_column_vars_t :=
  ⟨10, 156, 159, 0, 65536, 0, ramp128, tileRamp, identityMap⟩

/-- A fuzz column whose clamped range is empty: `yl = 0` (clamped to 1),
`yh = 1`. -/
def fuzzEmptyColumn : draw_column_vars_t :=
  ⟨10, 0, 1, 0, 65536, 0, ramp128, tileRamp, identityMap⟩

/-! ## Auxiliary definitions for the refinement statements -/

/-- The parameter block `dcvars` with its colormap replaced by the composed
table `c[i] = colormap[translation[i]]`. -/
def composedColumn (dcvars : draw_column_vars_t) : draw_column_vars_t :=
  { dcvars with colormap := fun i => dcvars.colormap (dcvars.translation i) }

/-- A translation table that reverses the order of the bytes:
`translation[i] = 255 - i mod 256`. -/
def flipMap : Nat → Nat := fun i => 255 - i % 256

/-- The scenario column with `texturemid` set to `centery << FRACBITS`, so that
its texel indices are `5, 6, 7, 8`, and with the translation table `flipMap`. -/
def translatedColumn : draw_column_vars_t :=
  ⟨10, 5, 8, 0, 65536, 5242880, ramp128, tileRamp, flipMap⟩

/-- The texel index of a two-field reference with independent `u` and `v`
accumulators, as the specification words it: before pixel `k` it is
`(((xfrac + k*xstep) >> 16) & 63) | ((((yfrac + k*ystep) >> 16) & 63) << 6)`,
the sums taken in 32-bit arithmetic. -/
def twoFieldSpot (xfrac yfrac xstep ystep : Int) (k : Nat) : Nat :=
  (toU32 (wrap32 (xfrac + (k : Int) * xstep) >>> (16 : Nat)) &&& 63) |||
    ((toU32 (wrap32 (yfrac + (k : Int) * ystep) >>> (16 : Nat)) &&& 63) <<< 6)

/-- The texel index `spot` that `R_DrawSpan` uses for pixel `k` of a span. -/
def spanSpotAt (dsvars : draw_span_vars_t) (k : Nat) : Nat :=
  spanSpot (spanPosition (packUV dsvars.xfrac dsvars.yfrac)
    (packUV dsvars.xstep dsvars.ystep) k)

/-- A span of three pixels that moves one texel per pixel toward smaller `v`
(`ystep = -(1 << 16)`) and stays at `u` just below 1 (`xfrac = 0xFFFF`,
`xstep = 0`). -/
def carrySpan : draw_span_vars_t :=
  ⟨0, 0, 2, 65535, 0, 0, -65536, tileRamp, identityMap⟩

/-- A span of 64 pixels that moves half a texel per pixel in `u` and a quarter
of a texel per pixel in `v`, from texel (3, 2). -/
def diagonalSpan : draw_span_vars_t :=
  ⟨0, 0, 63, 196608, 131072, 32768, 16384, tileRamp, identityMap⟩

/-- The number of carries out of the 16-bit `v` field (the low half) of the
position word of `R_DrawSpan` in the first `k` steps: the `v` field starts at
`(yfrac >> 6) & 0xffff`, each step adds `(ystep >> 6) & 0xffff` to it, and every
overflow of the field adds 1 to the `u` field above it. -/
def vCarries (yfrac ystep : Int) (k : Nat) : Nat :=
  ((toU32 (yfrac >>> (6 : Nat)) &&& 0x0000ffff)
    + k * (toU32 (ystep >>> (6 : Nat)) &&& 0x0000ffff)) >>> 16

/-- A span of two pixels whose `v` step is one unit of `fixed_t` (`ystep = 1`,
not a multiple of 64) and whose `v` starts one unit below texel 1
(`yfrac = 0xFFFF`). -/
def truncSpan : draw_span_vars_t :=
  ⟨0, 0, 1, 0, 65535, 0, 1, tileRamp, identityMap⟩

/-- A span of 64 pixels that moves half a texel per pixel in `u` and a quarter
of a texel per pixel toward smaller `v`, from texel (3, 2). -/
def backDiagonalSpan : draw_span_vars_t :=
  ⟨0, 0, 63, 196608, 131072, 32768, -16384, tileRamp, identityMap⟩

/-- The machine `s` is `m` after some stores: its log extends the log of `m`,
and its frame buffer is the frame buffer of `m` with the added stores applied in
order. -/
def logged (m s : Machine) : Prop :=
  ∃ ws : List (Int × Nat), s.writes = m.writes ++ ws ∧ s.fb = replay m.fb ws

/-- The value `v` with its low 6 bits cleared (`v & ~63`): the part of a
coordinate or step that the position word of `R_DrawSpan` keeps. -/
def clear6 (v : Int) : Int := v - v % 64

/-! ## Machine integers: lemmas -/

theorem wrap32_modEq (v : Int) : wrap32 v ≡ v [ZMOD 4294967296] := by
  unfold wrap32 Int.ModEq; omega

theorem wrap32_congr {a b : Int} (h : a ≡ b [ZMOD 4294967296]) : wrap32 a = wrap32 b := by
  unfold wrap32 Int.ModEq at *; omega

theorem wrap32_of_isInt32 {v : Int} (h : isInt32 v) : wrap32 v = v := by
  unfold wrap32; unfold isInt32 at h; omega

theorem toU32_wrap32 (v : Int) : toU32 (wrap32 v) = toU32 v := by
  unfold toU32 wrap32; congr 1; omega

theorem toU32_of_nonneg {v : Int} (h0 : 0 ≤ v) (h1 : v < 4294967296) :
    toU32 v = v.toNat := by
  unfold toU32; congr 1; omega

theorem toU32_lt (v : Int) : toU32 v < 4294967296 := by
  unfold toU32; omega

/-- The countdown of a difference of two `int`s, the larger first. -/
theorem toU32_count {lo hi : Int} (hlo : isInt32 lo) (hhi : isInt32 hi) (h : lo ≤ hi) :
    toU32 (wrap32 (hi - lo)) = (hi - lo).toNat := by
  rw [toU32_wrap32]
  unfold isInt32 at hlo hhi
  exact toU32_of_nonneg (by omega) (by omega)

/-! ## Loops: lemmas -/

theorem doWhileCount_eq_iterate {σ : Type} (body : σ → σ) (n : Nat) (s : σ) :
    doWhileCount body n s = body^[n + 1] s := by
  induction n generalizing s with
  | zero => rfl
  | succ n ih => rw [doWhileCount, ih]; rfl

theorem replay_append (fb : Int → Nat) (ws : List (Int × Nat)) (d : Int) (v : Nat) :
    replay fb (ws ++ [(d, v)]) = fun a => if a = d then v else replay fb ws a := by
  simp [replay, List.foldl_append]

theorem replay_of_not_mem (fb : Int → Nat) (ws : List (Int × Nat)) (a : Int)
    (h : ∀ w ∈ ws, w.1 ≠ a) : replay fb ws a = fb a := by
  induction ws using List.reverseRecOn with
  | nil => rfl
  | append_singleton ws w ih =>
    obtain ⟨d, v⟩ := w
    rw [replay_append]
    have hd : a ≠ d := fun e => h (d, v) (by simp) e.symm
    simp only [hd, if_false]
    exact ih fun w hw => h w (by simp [hw])

theorem columnStep_iterate (stride fracstep : Int) (val : Int → Nat) (d f0 : Int)
    (m : Machine) (n : Nat) :
    (columnStep stride fracstep val)^[n] ⟨d, wrap32 f0, m⟩ =
      ⟨d + n * stride, wrap32 (f0 + n * fracstep),
        ⟨replay m.fb (columnWrites stride fracstep val d f0 n), m.fuzzpos,
          m.writes ++ columnWrites stride fracstep val d f0 n⟩⟩ := by
  induction n with
  | zero => simp [columnWrites, replay]
  | succ n ih =>
    rw [Function.iterate_succ_apply', ih]
    have hw : columnWrites stride fracstep val d f0 (n + 1) =
        columnWrites stride fracstep val d f0 n ++
          [(d + n * stride, val (wrap32 (f0 + n * fracstep)))] := by
      simp [columnWrites, List.range_succ]
    rw [hw, replay_append]
    simp only [columnStep, Machine.store, List.append_assoc]
    congr 1
    · push_cast; ring
    · apply wrap32_congr
      have := wrap32_modEq (f0 + n * fracstep)
      calc wrap32 (f0 + n * fracstep) + fracstep
          ≡ (f0 + n * fracstep) + fracstep [ZMOD 4294967296] := this.add_right _
        _ = f0 + ((n + 1 : Nat) : Int) * fracstep := by push_cast; ring

/-- The initial value of `frac` in the column drawers, for a first row `y0`. -/
theorem frac_init (tm y0 cy fs : Int) :
    wrap32 (tm + wrap32 (wrap32 (y0 - cy) * fs)) = wrap32 (tm + (y0 - cy) * fs) := by
  apply wrap32_congr
  exact ((wrap32_modEq _).trans ((wrap32_modEq _).mul_right _)).add_left _ 

/-- The whole effect of `R_DrawColumn` on a column of positive length. -/
theorem R_DrawColumn_run (g : Env) (dc : draw_column_vars_t) (m : Machine)
    (hyl : isInt32 dc.yl) (hyh : isInt32 dc.yh) (h : dc.yl < dc.yh) :
    R_DrawColumn g dc m =
      ⟨replay m.fb (columnWrites g.SCREENWIDTH dc.iscale (columnUnit dc)
          (wrap32 (dc.yl * g.byte_pitch) + dc.x) (dc.texturemid + (dc.yl - g.centery) * dc.iscale)
          ((dc.yh - dc.yl).toNat + 1)),
        m.fuzzpos,
        m.writes ++ columnWrites g.SCREENWIDTH dc.iscale (columnUnit dc)
          (wrap32 (dc.yl * g.byte_pitch) + dc.x) (dc.texturemid + (dc.yl - g.centery) * dc.iscale)
          ((dc.yh - dc.yl).toNat + 1)⟩ := by
  have hb : R_DrawColumn_body g dc = columnStep g.SCREENWIDTH dc.iscale (columnUnit dc) := rfl
  unfold R_DrawColumn
  simp only [ge_iff_le, not_le.mpr h, if_false]
  rw [doWhileCount_eq_iterate, hb, frac_init, toU32_count hyl hyh h.le, columnStep_iterate]

theorem newWrites_append (m : Machine) (fb : Int → Nat) (p : Int) (ws : List (Int × Nat)) :
    newWrites m ⟨fb, p, m.writes ++ ws⟩ = ws := by
  simp [newWrites]

theorem R_DrawColumn_newWrites (g : Env) (dc : draw_column_vars_t) (m : Machine)
    (hyl : isInt32 dc.yl) (hyh : isInt32 dc.yh) (h : dc.yl < dc.yh) :
    newWrites m (R_DrawColumn g dc m) =
      columnWrites g.SCREENWIDTH dc.iscale (columnUnit dc)
        (wrap32 (dc.yl * g.byte_pitch) + dc.x) (dc.texturemid + (dc.yl - g.centery) * dc.iscale)
        ((dc.yh - dc.yl).toNat + 1) := by
  rw [R_DrawColumn_run g dc m hyl hyh h, newWrites_append]

theorem columnWrites_length (stride fracstep : Int) (val : Int → Nat) (d f0 : Int) (n : Nat) :
    (columnWrites stride fracstep val d f0 n).length = n := by
  simp [columnWrites]

theorem columnWrites_get (stride fracstep : Int) (val : Int → Nat) (d f0 : Int) (n k : Nat)
    (hk : k < n) :
    (columnWrites stride fracstep val d f0 n)[k]? =
      some (d + k * stride, val (wrap32 (f0 + k * fracstep))) := by
  simp [columnWrites, List.getElem?_map, List.getElem?_range hk]

/-! ## Bit masks: lemmas -/

/-- Masking with `k` ones shifted left by `s` keeps the bits `s .. s+k-1`. -/
theorem and_shifted_mask (c s k : Nat) :
    c &&& ((2 ^ k - 1) <<< s) = (c / 2 ^ s % 2 ^ k) * 2 ^ s := by
  apply Nat.eq_of_testBit_eq
  intro i
  rw [← Nat.shiftLeft_eq, ← Nat.shiftRight_eq_div_pow]
  simp only [Nat.testBit_and, Nat.testBit_shiftLeft, Nat.testBit_two_pow_sub_one,
    Nat.testBit_mod_two_pow, Nat.testBit_shiftRight]
  by_cases h : s ≤ i
  · have e : s + (i - s) = i := by omega
    simp [h, e, Bool.and_comm]
  · simp [h]

/-- A multiple of `2 ^ s` and a number below `2 ^ s` have no bit in common. -/
theorem or_eq_add (a b s : Nat) (hb : b < 2 ^ s) : a * 2 ^ s ||| b = a * 2 ^ s + b := by
  rw [Nat.mul_comm, Nat.mul_add_lt_is_or hb]

theorem or_eq_add16 (a b : Nat) (hb : b < 65536) : a * 65536 ||| b = a * 65536 + b :=
  or_eq_add a b 16 hb

theorem or_eq_add6 (a b : Nat) (hb : b < 64) : b ||| a * 64 = b + a * 64 := by
  rw [Nat.lor_comm, Nat.add_comm]
  exact or_eq_add a b 6 hb

theorem and_ffff0000 (c : Nat) : c &&& 0xffff0000 = (c / 65536 % 65536) * 65536 :=
  and_shifted_mask c 16 16

theorem and_0fc0 (c : Nat) : c &&& 0x0fc0 = (c / 64 % 64) * 64 :=
  and_shifted_mask c 6 6

theorem and_ffff (c : Nat) : c &&& 0x0000ffff = c % 65536 :=
  Nat.and_pow_two_sub_one_eq_mod c 16

theorem and_ff (c : Nat) : c &&& 0xff = c % 256 :=
  Nat.and_pow_two_sub_one_eq_mod c 8

theorem and_127 (c : Nat) : c &&& 127 = c % 128 :=
  Nat.and_pow_two_sub_one_eq_mod c 7

theorem and_63 (c : Nat) : c &&& 63 = c % 64 :=
  Nat.and_pow_two_sub_one_eq_mod c 6

/-- The position word in arithmetic form. -/
theorem packUV_eq (xf yf : Int) :
    packUV xf yf = (toU32 xf / 64 % 65536) * 65536 + toU32 yf / 64 % 65536 := by
  unfold packUV
  rw [and_ffff0000, and_ffff, or_eq_add16 _ _ (Nat.mod_lt _ (by norm_num))]
  have h1 : toU32 (xf * 1024) / 65536 % 65536 = toU32 xf / 64 % 65536 := by
    unfold toU32; omega
  have h2 : toU32 (yf >>> (6 : Nat)) % 65536 = toU32 yf / 64 % 65536 := by
    rw [Int.shiftRight_eq_div_pow]
    unfold toU32; norm_num; omega
  rw [h1, h2]

theorem packUV_lt (xf yf : Int) : packUV xf yf < 4294967296 := by
  rw [packUV_eq]; omega

/-- The texel index in arithmetic form. -/
theorem spanSpot_eq (p : Nat) (hp : p < 4294967296) :
    spanSpot p = p / 67108864 + (p / 1024 % 64) * 64 := by
  unfold spanSpot
  simp only [Nat.shiftRight_eq_div_pow, and_0fc0]
  rw [or_eq_add6 _ _ (by omega)]
  omega

/-- The texel index of the packed pair in terms of the two coordinates. -/
theorem spanSpot_packUV (xf yf : Int) :
    spanSpot (packUV xf yf) =
      (toU32 (xf >>> (16 : Nat)) &&& 63) ||| ((toU32 (yf >>> (16 : Nat)) &&& 63) <<< 6) := by
  rw [spanSpot_eq _ (packUV_lt xf yf), packUV_eq, and_63, and_63, Nat.shiftLeft_eq,
    or_eq_add6 _ _ (Nat.mod_lt _ (by norm_num))]
  have h1 : toU32 (xf >>> (16 : Nat)) % 64 = toU32 xf / 65536 % 64 := by
    rw [Int.shiftRight_eq_div_pow]
    unfold toU32; norm_num; omega
  have h2 : toU32 (yf >>> (16 : Nat)) % 64 = toU32 yf / 65536 % 64 := by
    rw [Int.shiftRight_eq_div_pow]
    unfold toU32; norm_num; omega
  rw [h1, h2]
  have := toU32_lt xf
  have := toU32_lt yf
  omega

/-! ## R_DrawSpan: lemmas -/

theorem R_DrawSpan_body_iterate (ds : draw_span_vars_t) (step : Nat) (d : Int) (p0 : Nat)
    (hp : p0 < 4294967296) (m : Machine) (n : Nat) :
    (R_DrawSpan_body ds step)^[n] ⟨d, p0, m⟩ =
      ⟨d + n, spanPosition p0 step n,
        ⟨replay m.fb (spanWrites ds d p0 step n), m.fuzzpos,
          m.writes ++ spanWrites ds d p0 step n⟩⟩ := by
  induction n with
  | zero => simp [spanWrites, replay, spanPosition, Nat.mod_eq_of_lt hp]
  | succ n ih =>
    rw [Function.iterate_succ_apply', ih]
    have hw : spanWrites ds d p0 step (n + 1) =
        spanWrites ds d p0 step n ++ [(d + n, spanUnit ds (spanPosition p0 step n))] := by
      simp [spanWrites, List.range_succ]
    rw [hw, replay_append]
    simp only [R_DrawSpan_body, Machine.store, List.append_assoc, spanUnit]
    congr 1
    · push_cast; ring
    · unfold spanPosition
      rw [Nat.mod_add_mod]
      congr 1
      ring

/-- The whole effect of `R_DrawSpan`. -/
theorem R_DrawSpan_run (g : Env) (ds : draw_span_vars_t) (m : Machine) :
    R_DrawSpan g ds m =
      ⟨replay m.fb (spanWrites ds (wrap32 (ds.y * g.byte_pitch) + ds.x1) (packUV ds.xfrac ds.yfrac)
          (packUV ds.xstep ds.ystep) (toU32 (wrap32 (ds.x2 - ds.x1)) + 1)),
        m.fuzzpos,
        m.writes ++ spanWrites ds (wrap32 (ds.y * g.byte_pitch) + ds.x1) (packUV ds.xfrac ds.yfrac)
          (packUV ds.xstep ds.ystep) (toU32 (wrap32 (ds.x2 - ds.x1)) + 1)⟩ := by
  unfold R_DrawSpan
  simp only []
  rw [doWhileCount_eq_iterate, R_DrawSpan_body_iterate _ _ _ _ (packUV_lt _ _)]

theorem R_DrawSpan_newWrites (g : Env) (ds : draw_span_vars_t) (m : Machine) :
    newWrites m (R_DrawSpan g ds m) =
      spanWrites ds (wrap32 (ds.y * g.byte_pitch) + ds.x1) (packUV ds.xfrac ds.yfrac)
        (packUV ds.xstep ds.ystep) (toU32 (wrap32 (ds.x2 - ds.x1)) + 1) := by
  rw [R_DrawSpan_run, newWrites_append]

theorem spanWrites_length (ds : draw_span_vars_t) (d : Int) (p0 step n : Nat) :
    (spanWrites ds d p0 step n).length = n := by
  simp [spanWrites]

theorem spanWrites_get (ds : draw_span_vars_t) (d : Int) (p0 step n k : Nat) (hk : k < n) :
    (spanWrites ds d p0 step n)[k]? = some (d + k, spanUnit ds (spanPosition p0 step k)) := by
  simp [spanWrites, List.getElem?_map, List.getElem?_range hk]

theorem spanWrites_mem (ds : draw_span_vars_t) (d : Int) (p0 step n : Nat) (w : Int × Nat)
    (hw : w ∈ spanWrites ds d p0 step n) :
    ∃ k : Nat, k < n ∧ w = (d + k, spanUnit ds (spanPosition p0 step k)) := by
  simp only [spanWrites, List.mem_map, List.mem_range] at hw
  obtain ⟨k, hk, rfl⟩ := hw
  exact ⟨k, hk, rfl⟩

/-- After the stores of a span, the cell of pixel `k` holds the unit of pixel `k`. -/
theorem replay_spanWrites_at (fb : Int → Nat) (ds : draw_span_vars_t) (d : Int)
    (p0 step n k : Nat) (hk : k < n) :
    replay fb (spanWrites ds d p0 step n) (d + k) = spanUnit ds (spanPosition p0 step k) := by
  induction n with
  | zero => omega
  | succ n ih =>
    have hw : spanWrites ds d p0 step (n + 1) =
        spanWrites ds d p0 step n ++ [(d + n, spanUnit ds (spanPosition p0 step n))] := by
      simp [spanWrites, List.range_succ]
    rw [hw, replay_append]
    by_cases e : k = n
    · subst e; simp
    · have hne : d + (k : Int) ≠ d + (n : Int) := by omega
      simp only [hne, if_false]
      exact ih (by omega)

theorem packUV_zero : packUV 0 0 = 0 := by decide

theorem packUV_texel_step : packUV 65536 0 = 67108864 := by decide

theorem spanPosition_zero_step (p0 k : Nat) (hp : p0 < 4294967296) :
    spanPosition p0 0 k = p0 := by
  simp [spanPosition, Nat.mod_eq_of_lt hp]

/-! ## Pixel packing: lemmas -/

theorem pack_of_byte (c : Nat) (hc : c < 256) : pack c = c * 256 + c := by
  have e : c % 65536 = c := Nat.mod_eq_of_lt (by omega)
  unfold pack
  simp only [e, Nat.shiftLeft_eq]
  rw [Nat.lor_comm, or_eq_add c c 8 (by omega)]
  omega

theorem replicated_pack (c : Nat) (hc : c < 256) : replicated (pack c) := by
  unfold replicated
  rw [pack_of_byte c hc, and_ff, Nat.shiftRight_eq_div_pow]
  omega

theorem doWhileCount_invariant {σ : Type} (P : σ → Prop) (body : σ → σ)
    (hbody : ∀ s, P s → P (body s)) (n : Nat) (s : σ) (hs : P s) :
    P (doWhileCount body n s) := by
  induction n generalizing s with
  | zero => exact hbody s hs
  | succ n ih => exact ih (body s) (hbody s hs)

theorem onlyReplicated_refl (m : Machine) : onlyReplicated m m :=
  ⟨[], by simp, by simp⟩

theorem onlyReplicated_store (m s : Machine) (d : Int) (c : Nat) (hc : c < 256)
    (h : onlyReplicated m s) : onlyReplicated m (s.store d (pack c)) := by
  obtain ⟨ws, hw, hr⟩ := h
  refine ⟨ws ++ [(d, pack c)], by simp [Machine.store, hw], ?_⟩
  intro w hmem
  rcases List.mem_append.mp hmem with h1 | h1
  · exact hr w h1
  · rw [List.mem_singleton] at h1
    subst h1
    exact replicated_pack c hc

theorem onlyReplicated_newWrites (m s : Machine) (h : onlyReplicated m s) :
    ∀ w ∈ newWrites m s, replicated w.2 := by
  obtain ⟨ws, hw, hr⟩ := h
  intro w hmem
  apply hr
  simpa [newWrites, hw] using hmem

theorem R_DrawColumn_onlyReplicated (g : Env) (dc : draw_column_vars_t) (m : Machine)
    (hc : ∀ i, dc.colormap i < 256) : onlyReplicated m (R_DrawColumn g dc m) := by
  unfold R_DrawColumn
  simp only []
  split
  · exact onlyReplicated_refl m
  · exact doWhileCount_invariant (fun s : ColumnLoop => onlyReplicated m s.m) _
      (fun s hs => onlyReplicated_store m s.m s.dest _ (hc _) hs) _ _ (onlyReplicated_refl m)

theorem R_DrawTranslatedColumn_onlyReplicated (g : Env) (dc : draw_column_vars_t)
    (m : Machine) (hc : ∀ i, dc.colormap i < 256) :
    onlyReplicated m (R_DrawTranslatedColumn g dc m) := by
  unfold R_DrawTranslatedColumn
  simp only []
  split
  · exact onlyReplicated_refl m
  · exact doWhileCount_invariant (fun s : ColumnLoop => onlyReplicated m s.m) _
      (fun s hs => onlyReplicated_store m s.m s.dest _ (hc _) hs) _ _ (onlyReplicated_refl m)

theorem R_DrawFuzzColumn_onlyReplicated (g : Env) (dc : draw_column_vars_t) (m : Machine)
    (hf : ∀ i, g.fullcolormap i < 256) : onlyReplicated m (R_DrawFuzzColumn g dc m) := by
  have hloop : ∀ (n : Nat) (s : ColumnLoop), onlyReplicated m s.m →
      onlyReplicated m (doWhileCount (R_DrawFuzzColumn_body g dc) n s).m := by
    intro n s hs
    refine doWhileCount_invariant (fun s : ColumnLoop => onlyReplicated m s.m) _ ?_ n s hs
    intro s hs
    obtain ⟨ws, hw, hr⟩ := onlyReplicated_store m s.m s.dest _ (hf _) hs
    exact ⟨ws, hw, hr⟩
  unfold R_DrawFuzzColumn
  simp only []
  split_ifs <;> first | exact onlyReplicated_refl m | exact hloop _ _ (onlyReplicated_refl m)

theorem R_DrawSpan_onlyReplicated (g : Env) (ds : draw_span_vars_t) (m : Machine)
    (hc : ∀ i, ds.colormap i < 256) : onlyReplicated m (R_DrawSpan g ds m) := by
  unfold R_DrawSpan
  exact doWhileCount_invariant (fun s : SpanLoop => onlyReplicated m s.m) _
    (fun s hs => onlyReplicated_store m s.m s.dest _ (hc _) hs) _ _ (onlyReplicated_refl m)

/-! ## R_DrawFuzzColumn: lemmas -/

theorem fuzzNext_valid (p : Int) (h0 : 0 ≤ p) (h1 : p < FUZZTABLE) :
    fuzzNext p = (p + 1) % FUZZTABLE ∧ 0 ≤ fuzzNext p ∧ fuzzNext p < FUZZTABLE := by
  unfold fuzzNext wrap32 FUZZTABLE at *
  split_ifs <;> omega

theorem fuzzNext_iterate (p : Int) (h0 : 0 ≤ p) (h1 : p < FUZZTABLE) (n : Nat) :
    fuzzNext^[n] p = (p + n) % FUZZTABLE := by
  induction n with
  | zero => unfold FUZZTABLE at *; simp; omega
  | succ n ih =>
    rw [Function.iterate_succ_apply', ih]
    have hv := fuzzNext_valid ((p + n) % FUZZTABLE) (by unfold FUZZTABLE; omega)
      (by unfold FUZZTABLE; omega)
    rw [hv.1]
    unfold FUZZTABLE
    push_cast
    omega

theorem fuzzWrites_length (g : Env) (fb : Int → Nat) (d p : Int) (n : Nat) :
    (fuzzWrites g fb d p n).length = n := by
  induction n with
  | zero => rfl
  | succ n ih => simp [fuzzWrites, ih]

theorem R_DrawFuzzColumn_body_iterate (g : Env) (dc : draw_column_vars_t) (d f0 : Int)
    (m : Machine) (n : Nat) :
    (R_DrawFuzzColumn_body g dc)^[n] ⟨d, wrap32 f0, m⟩ =
      ⟨d + n * g.SCREENWIDTH, wrap32 (f0 + n * dc.iscale),
        ⟨replay m.fb (fuzzWrites g m.fb d m.fuzzpos n), fuzzNext^[n] m.fuzzpos,
          m.writes ++ fuzzWrites g m.fb d m.fuzzpos n⟩⟩ := by
  induction n with
  | zero => simp [fuzzWrites, replay]
  | succ n ih =>
    rw [Function.iterate_succ_apply', ih]
    simp only [fuzzWrites, replay_append, Function.iterate_succ_apply']
    simp only [R_DrawFuzzColumn_body, Machine.store, List.append_assoc, fuzzUnit, fuzzNext]
    congr 1
    · push_cast; ring
    · apply wrap32_congr
      have := wrap32_modEq (f0 + n * dc.iscale)
      calc wrap32 (f0 + n * dc.iscale) + dc.iscale
          ≡ (f0 + n * dc.iscale) + dc.iscale [ZMOD 4294967296] := this.add_right _
        _ = f0 + ((n + 1 : Nat) : Int) * dc.iscale := by push_cast; ring

/-- The whole effect of `R_DrawFuzzColumn` when the clamped range is not empty. -/
theorem R_DrawFuzzColumn_run (g : Env) (dc : draw_column_vars_t) (m : Machine)
    (h : fuzz_dc_yl dc < fuzz_dc_yh g dc) :
    R_DrawFuzzColumn g dc m =
      ⟨replay m.fb (fuzzWrites g m.fb (wrap32 (dc.yl * g.byte_pitch) + dc.x) m.fuzzpos
          (toU32 (wrap32 (fuzz_dc_yh g dc - fuzz_dc_yl dc)) + 1)),
        fuzzNext^[toU32 (wrap32 (fuzz_dc_yh g dc - fuzz_dc_yl dc)) + 1] m.fuzzpos,
        m.writes ++ fuzzWrites g m.fb (wrap32 (dc.yl * g.byte_pitch) + dc.x) m.fuzzpos
          (toU32 (wrap32 (fuzz_dc_yh g dc - fuzz_dc_yl dc)) + 1)⟩ := by
  have hg : ¬ (fuzz_dc_yl dc ≥ fuzz_dc_yh g dc) := not_le.mpr h
  have hdef : R_DrawFuzzColumn g dc m =
      if fuzz_dc_yl dc ≥ fuzz_dc_yh g dc then m
      else (doWhileCount (R_DrawFuzzColumn_body g dc)
        (toU32 (wrap32 (fuzz_dc_yh g dc - fuzz_dc_yl dc)))
        ⟨wrap32 (dc.yl * g.byte_pitch) + dc.x,
          wrap32 (dc.texturemid + wrap32 (wrap32 (fuzz_dc_yl dc - g.centery) * dc.iscale)),
          m⟩).m := rfl
  rw [hdef, if_neg hg, doWhileCount_eq_iterate, R_DrawFuzzColumn_body_iterate]

/-- The effect of `R_DrawFuzzColumn` when the clamped range is empty. -/
theorem R_DrawFuzzColumn_empty (g : Env) (dc : draw_column_vars_t) (m : Machine)
    (h : fuzz_dc_yl dc ≥ fuzz_dc_yh g dc) : R_DrawFuzzColumn g dc m = m := by
  have hdef : R_DrawFuzzColumn g dc m =
      if fuzz_dc_yl dc ≥ fuzz_dc_yh g dc then m
      else (doWhileCount (R_DrawFuzzColumn_body g dc)
        (toU32 (wrap32 (fuzz_dc_yh g dc - fuzz_dc_yl dc)))
        ⟨wrap32 (dc.yl * g.byte_pitch) + dc.x,
          wrap32 (dc.texturemid + wrap32 (wrap32 (fuzz_dc_yl dc - g.centery) * dc.iscale)),
          m⟩).m := rfl
  rw [hdef, if_pos h]

/-- Every call of `R_DrawFuzzColumn` appends its stores to the log and moves
the fuzz position once per store. -/
theorem R_DrawFuzzColumn_effect (g : Env) (dc : draw_column_vars_t) (m : Machine) :
    ∃ ws : List (Int × Nat), (R_DrawFuzzColumn g dc m).writes = m.writes ++ ws ∧
      (R_DrawFuzzColumn g dc m).fuzzpos = fuzzNext^[ws.length] m.fuzzpos := by
  by_cases h : fuzz_dc_yl dc < fuzz_dc_yh g dc
  · rw [R_DrawFuzzColumn_run g dc m h]
    exact ⟨_, rfl, by rw [fuzzWrites_length]⟩
  · rw [R_DrawFuzzColumn_empty g dc m (not_lt.mp h)]
    exact ⟨[], by simp, rfl⟩

theorem fuzzWrites_get (g : Env) (fb : Int → Nat) (d p : Int) (n k : Nat) (hk : k < n) :
    (fuzzWrites g fb d p n)[k]? =
      some (d + (k : Int) * g.SCREENWIDTH,
        fuzzUnit g (replay fb (fuzzWrites g fb d p k)) (d + (k : Int) * g.SCREENWIDTH)
          (fuzzNext^[k] p)) := by
  induction n with
  | zero => omega
  | succ n ih =>
    rw [fuzzWrites]
    by_cases e : k = n
    · subst e
      rw [List.getElem?_append_right (by rw [fuzzWrites_length]), fuzzWrites_length]
      simp
    · rw [List.getElem?_append_left (by rw [fuzzWrites_length]; omega)]
      exact ih (by omega)

theorem fuzzWrites_take (g : Env) (fb : Int → Nat) (d p : Int) (n k : Nat) (hk : k ≤ n) :
    (fuzzWrites g fb d p n).take k = fuzzWrites g fb d p k := by
  induction n with
  | zero =>
    have : k = 0 := by omega
    subst this; rfl
  | succ n ih =>
    by_cases e : k = n + 1
    · subst e
      rw [List.take_of_length_le (by rw [fuzzWrites_length])]
    · rw [fuzzWrites, List.take_append_of_le_length (by rw [fuzzWrites_length]; omega)]
      exact ih (by omega)

theorem fuzzWrites_offsets (g : Env) (fb : Int → Nat) (d p : Int) (n : Nat) :
    (fuzzWrites g fb d p n).map Prod.fst =
      (List.range n).map fun (k : Nat) => d + (k : Int) * g.SCREENWIDTH := by
  induction n with
  | zero => rfl
  | succ n ih => simp [fuzzWrites, ih, List.range_succ]

/-- Every entry of `fuzzoffset` is one row down or one row up. -/
theorem fuzzoffset_valid (g : Env) (p : Int) (h0 : 0 ≤ p) (h1 : p < FUZZTABLE) :
    fuzzoffset g p = g.SCREENWIDTH ∨ fuzzoffset g p = -g.SCREENWIDTH := by
  unfold FUZZTABLE at h1
  obtain ⟨i, rfl⟩ := Int.eq_ofNat_of_zero_le h0
  have hi : i < 50 := by omega
  unfold fuzzoffset
  simp only [h0, if_true, Int.toNat_ofNat]
  interval_cases i <;> simp [fuzzoffsetTable]

theorem fuzz_dc_yh_of_bottom (g : Env) (dc : draw_column_vars_t)
    (hv1 : isInt32 (g.viewheight - 1)) (hv2 : isInt32 (g.viewheight - 2)) :
    fuzz_dc_yh g dc = if dc.yh = g.viewheight - 1 then g.viewheight - 2 else dc.yh := by
  unfold fuzz_dc_yh
  rw [wrap32_of_isInt32 hv1, wrap32_of_isInt32 hv2]

theorem drawFuzzColumns_effect (g : Env) (dcs : List draw_column_vars_t) (m : Machine) :
    ∃ ws : List (Int × Nat), (drawFuzzColumns g dcs m).writes = m.writes ++ ws ∧
      (drawFuzzColumns g dcs m).fuzzpos = fuzzNext^[ws.length] m.fuzzpos := by
  induction dcs generalizing m with
  | nil => exact ⟨[], by simp [drawFuzzColumns], rfl⟩
  | cons dc dcs ih =>
    obtain ⟨ws1, hw1, hp1⟩ := R_DrawFuzzColumn_effect g dc m
    obtain ⟨ws2, hw2, hp2⟩ := ih (R_DrawFuzzColumn g dc m)
    refine ⟨ws1 ++ ws2, ?_, ?_⟩
    · show (drawFuzzColumns g dcs (R_DrawFuzzColumn g dc m)).writes = _
      rw [hw2, hw1, List.append_assoc]
    · show (drawFuzzColumns g dcs (R_DrawFuzzColumn g dc m)).fuzzpos = _
      rw [hp2, hp1, List.length_append, Nat.add_comm, Function.iterate_add_apply]

/-! ## R_DrawTranslatedColumn: lemmas -/

/-- The whole effect of `R_DrawTranslatedColumn` on a column of positive length. -/
theorem R_DrawTranslatedColumn_run (g : Env) (dc : draw_column_vars_t) (m : Machine)
    (hyl : isInt32 dc.yl) (hyh : isInt32 dc.yh) (h : dc.yl < dc.yh) :
    R_DrawTranslatedColumn g dc m =
      ⟨replay m.fb (columnWrites g.SCREENWIDTH dc.iscale (translatedUnit dc)
          (wrap32 (dc.yl * g.byte_pitch) + dc.x) (dc.texturemid + (dc.yl - g.centery) * dc.iscale)
          ((dc.yh - dc.yl).toNat + 1)),
        m.fuzzpos,
        m.writes ++ columnWrites g.SCREENWIDTH dc.iscale (translatedUnit dc)
          (wrap32 (dc.yl * g.byte_pitch) + dc.x) (dc.texturemid + (dc.yl - g.centery) * dc.iscale)
          ((dc.yh - dc.yl).toNat + 1)⟩ := by
  have hb : R_DrawTranslatedColumn_body g dc =
      columnStep g.SCREENWIDTH dc.iscale (translatedUnit dc) := rfl
  unfold R_DrawTranslatedColumn
  simp only [ge_iff_le, not_le.mpr h, if_false]
  rw [doWhileCount_eq_iterate, hb, frac_init, toU32_count hyl hyh h.le, columnStep_iterate]

theorem columnWrites_congr (stride fracstep : Int) (val1 val2 : Int → Nat) (d f0 : Int)
    (n : Nat)
    (h : ∀ k : Nat, k < n → val1 (wrap32 (f0 + k * fracstep)) = val2 (wrap32 (f0 + k * fracstep))) :
    columnWrites stride fracstep val1 d f0 n = columnWrites stride fracstep val2 d f0 n := by
  unfold columnWrites
  apply List.map_congr_left
  intro k hk
  rw [h k (List.mem_range.mp hk)]

/-- A texel index in `0 .. 127` is not changed by the mask `& 127`. -/
theorem columnTexel_of_small (frac : Int) (h0 : 0 ≤ frac >>> FRACBITS)
    (h1 : frac >>> FRACBITS ≤ 127) : ((columnTexel frac : Nat) : Int) = frac >>> FRACBITS := by
  unfold columnTexel
  rw [and_127]
  generalize frac >>> FRACBITS = v at h0 h1
  unfold toU32
  omega

/-! ## The packed accumulator of R_DrawSpan: lemmas -/

/-- One 16-bit field of the position word after `k` steps, when the step has no
bits below bit 6. -/
theorem field_accum (X S : Int) (k : Nat) (hS : S % 64 = 0) :
    (toU32 X / 64 % 65536 + k * (toU32 S / 64 % 65536)) % 65536 =
      toU32 (X + (k : Int) * S) / 64 % 65536 := by
  have hT : (X + (k : Int) * S) / 64 = X / 64 + (k : Int) * (S / 64) := by
    have hS' : S = 64 * (S / 64) := by omega
    have e : X + (k : Int) * S = X + ((k : Int) * (S / 64)) * 64 := by
      rw [mul_assoc, mul_comm (S / 64) 64, ← hS']
    rw [e, Int.add_mul_ediv_right _ _ (by norm_num)]
  have h1 : ((toU32 X / 64 % 65536 : Nat) : Int) ≡ X / 64 [ZMOD 65536] := by
    unfold toU32 Int.ModEq; omega
  have h2 : ((toU32 S / 64 % 65536 : Nat) : Int) ≡ S / 64 [ZMOD 65536] := by
    unfold toU32 Int.ModEq; omega
  have h3 : ((toU32 (X + (k : Int) * S) / 64 % 65536 : Nat) : Int) ≡
      (X + (k : Int) * S) / 64 [ZMOD 65536] := by
    generalize X + (k : Int) * S = T
    unfold toU32 Int.ModEq; omega
  have h4 : ((toU32 X / 64 % 65536 + k * (toU32 S / 64 % 65536) : Nat) : Int) ≡
      ((toU32 (X + (k : Int) * S) / 64 % 65536 : Nat) : Int) [ZMOD 65536] := by
    rw [hT] at h3
    push_cast
    exact (h1.add (h2.mul_left _)).trans h3.symm
  have h5 : toU32 (X + (k : Int) * S) / 64 % 65536 < 65536 := Nat.mod_lt _ (by norm_num)
  unfold Int.ModEq at h4
  omega

theorem lowField_eq (yf : Int) :
    toU32 (yf >>> (6 : Nat)) &&& 0x0000ffff = toU32 yf / 64 % 65536 := by
  rw [and_ffff, Int.shiftRight_eq_div_pow]
  unfold toU32; norm_num; omega

theorem hiTexel_eq (T : Int) :
    toU32 (wrap32 T >>> (16 : Nat)) &&& 63 = toU32 T / 65536 % 64 := by
  rw [and_63, Int.shiftRight_eq_div_pow, ← toU32_wrap32 T]
  generalize wrap32 T = w
  unfold toU32; norm_num; omega

theorem spanPosition_lt (p0 step k : Nat) : spanPosition p0 step k < 4294967296 := by
  unfold spanPosition; omega

/-- The texel index of the packed accumulator equals the two-field reference
when the steps have no bits below bit 6 and the low field has not overflowed. -/
theorem spanSpotAt_eq_twoFieldSpot (ds : draw_span_vars_t) (k : Nat)
    (hx : ds.xstep % 64 = 0) (hy : ds.ystep % 64 = 0)
    (hv : (toU32 (ds.yfrac >>> (6 : Nat)) &&& 0x0000ffff)
      + k * (toU32 (ds.ystep >>> (6 : Nat)) &&& 0x0000ffff) < 65536) :
    spanSpotAt ds k = twoFieldSpot ds.xfrac ds.yfrac ds.xstep ds.ystep k := by
  rw [lowField_eq, lowField_eq] at hv
  have fu := field_accum ds.xfrac ds.xstep k hx
  have fv := field_accum ds.yfrac ds.ystep k hy
  unfold spanSpotAt twoFieldSpot
  rw [spanSpot_eq _ (spanPosition_lt _ _ _), hiTexel_eq, hiTexel_eq, Nat.shiftLeft_eq,
    or_eq_add6 _ _ (Nat.mod_lt _ (by norm_num)), packUV_eq, packUV_eq]
  unfold spanPosition
  have e : toU32 ds.xfrac / 64 % 65536 * 65536 + toU32 ds.yfrac / 64 % 65536 +
      k * (toU32 ds.xstep / 64 % 65536 * 65536 + toU32 ds.ystep / 64 % 65536) =
      (toU32 ds.xfrac / 64 % 65536 + k * (toU32 ds.xstep / 64 % 65536)) * 65536 +
        (toU32 ds.yfrac / 64 % 65536 + k * (toU32 ds.ystep / 64 % 65536)) := by ring
  rw [e]
  generalize toU32 ds.xfrac / 64 % 65536 + k * (toU32 ds.xstep / 64 % 65536) = A at fu ⊢
  generalize toU32 ds.yfrac / 64 % 65536 + k * (toU32 ds.ystep / 64 % 65536) = B at fv hv ⊢
  generalize toU32 (ds.xfrac + (k : Int) * ds.xstep) = U at fu ⊢
  generalize toU32 (ds.yfrac + (k : Int) * ds.ystep) = V at fv ⊢
  omega

theorem tdiv_65536 (frac : Int) :
    Int.tdiv frac 65536 = if 0 ≤ frac then frac / 65536 else -((-frac) / 65536) := by
  split_ifs with h
  · exact Int.tdiv_eq_ediv h (by norm_num)
  · have e : frac = -(-frac) := by omega
    rw [e, Int.neg_tdiv, Int.tdiv_eq_ediv (by omega) (by norm_num)]
    simp

/-- After the stores of a column run with a stride that is not 0, the cell of
pixel `k` holds the unit of pixel `k`. -/
theorem replay_columnWrites_at (fb : Int → Nat) (stride fracstep : Int) (val : Int → Nat)
    (d f0 : Int) (n k : Nat) (hs : stride ≠ 0) (hk : k < n) :
    replay fb (columnWrites stride fracstep val d f0 n) (d + (k : Int) * stride) =
      val (wrap32 (f0 + (k : Int) * fracstep)) := by
  induction n with
  | zero => omega
  | succ n ih =>
    have hw : columnWrites stride fracstep val d f0 (n + 1) =
        columnWrites stride fracstep val d f0 n ++
          [(d + n * stride, val (wrap32 (f0 + n * fracstep)))] := by
      simp [columnWrites, List.range_succ]
    rw [hw, replay_append]
    by_cases e : k = n
    · subst e; simp
    · have hne : d + (k : Int) * stride ≠ d + (n : Int) * stride := by
        intro h
        have h2 : ((k : Int) - (n : Int)) * stride = 0 := by linear_combination h
        rcases mul_eq_zero.mp h2 with h3 | h3
        · omega
        · exact hs h3
      simp only [hne, if_false]
      exact ih (by omega)

theorem columnWrites_mem (stride fracstep : Int) (val : Int → Nat) (d f0 : Int) (n : Nat)
    (w : Int × Nat) (hw : w ∈ columnWrites stride fracstep val d f0 n) :
    ∃ k : Nat, k < n ∧ w = (d + (k : Int) * stride, val (wrap32 (f0 + (k : Int) * fracstep))) := by
  simp only [columnWrites, List.mem_map, List.mem_range] at hw
  obtain ⟨k, hk, rfl⟩ := hw
  exact ⟨k, hk, rfl⟩

theorem twoFieldSpot_eq (X Y S T : Int) (k : Nat) :
    twoFieldSpot X Y S T k =
      toU32 (X + (k : Int) * S) / 65536 % 64 + (toU32 (Y + (k : Int) * T) / 65536 % 64) * 64 := by
  unfold twoFieldSpot
  rw [hiTexel_eq, hiTexel_eq, Nat.shiftLeft_eq, or_eq_add6 _ _ (Nat.mod_lt _ (by norm_num))]

theorem vCarries_eq (yfrac ystep : Int) (k : Nat) :
    vCarries yfrac ystep k =
      (toU32 yfrac / 64 % 65536 + k * (toU32 ystep / 64 % 65536)) / 65536 := by
  unfold vCarries
  rw [lowField_eq, lowField_eq, Nat.shiftRight_eq_div_pow]

theorem toU32_add_carries (T : Int) (c : Nat) :
    toU32 (T + 64 * (c : Int)) = (toU32 T + 64 * c) % 4294967296 := by
  unfold toU32; omega

/-- The texel index of the packed accumulator is the two-field reference whose
`u` start is advanced by one unit of the 10 fraction bits kept per carry out of
the `v` field, when the steps have no bits below bit 6. -/
theorem spanSpotAt_eq_carried (ds : draw_span_vars_t) (k : Nat)
    (hx : ds.xstep % 64 = 0) (hy : ds.ystep % 64 = 0) :
    spanSpotAt ds k =
      twoFieldSpot (ds.xfrac + 64 * (vCarries ds.yfrac ds.ystep k : Int)) ds.yfrac
        ds.xstep ds.ystep k := by
  have fu := field_accum ds.xfrac ds.xstep k hx
  have fv := field_accum ds.yfrac ds.ystep k hy
  have hc := vCarries_eq ds.yfrac ds.ystep k
  have hw := toU32_add_carries (ds.xfrac + (k : Int) * ds.xstep) (vCarries ds.yfrac ds.ystep k)
  have e1 : ds.xfrac + 64 * (vCarries ds.yfrac ds.ystep k : Int) + (k : Int) * ds.xstep =
      ds.xfrac + (k : Int) * ds.xstep + 64 * (vCarries ds.yfrac ds.ystep k : Int) := by ring
  rw [twoFieldSpot_eq, e1, hw]
  unfold spanSpotAt
  rw [spanSpot_eq _ (spanPosition_lt _ _ _), packUV_eq, packUV_eq]
  unfold spanPosition
  have e : toU32 ds.xfrac / 64 % 65536 * 65536 + toU32 ds.yfrac / 64 % 65536 +
      k * (toU32 ds.xstep / 64 % 65536 * 65536 + toU32 ds.ystep / 64 % 65536) =
      (toU32 ds.xfrac / 64 % 65536 + k * (toU32 ds.xstep / 64 % 65536)) * 65536 +
        (toU32 ds.yfrac / 64 % 65536 + k * (toU32 ds.ystep / 64 % 65536)) := by ring
  rw [e]
  have hU := toU32_lt (ds.xfrac + (k : Int) * ds.xstep)
  have hV := toU32_lt (ds.yfrac + (k : Int) * ds.ystep)
  generalize vCarries ds.yfrac ds.ystep k = c at hc ⊢
  generalize toU32 ds.xfrac / 64 % 65536 + k * (toU32 ds.xstep / 64 % 65536) = A at fu ⊢
  generalize toU32 ds.yfrac / 64 % 65536 + k * (toU32 ds.ystep / 64 % 65536) = B at fv hc ⊢
  generalize toU32 (ds.xfrac + (k : Int) * ds.xstep) = U at fu hU ⊢
  generalize toU32 (ds.yfrac + (k : Int) * ds.ystep) = V at fv hV ⊢
  omega

/-- The shift `frac >> FRACBITS` is the floor quotient, and the truncated quotient
only for `frac >= 0` or a multiple of `2^FRACBITS`. -/
theorem shift_floor_trunc (frac : Int) :
    frac >>> FRACBITS = Int.fdiv frac (2 ^ FRACBITS) ∧
    (frac >>> FRACBITS = Int.tdiv frac (2 ^ FRACBITS) ↔
      (0 ≤ frac ∨ frac % 2 ^ FRACBITS = 0)) := by
  have e : (2 : Int) ^ FRACBITS = 65536 := by norm_num [FRACBITS]
  have s : frac >>> FRACBITS = frac / 65536 := by
    rw [Int.shiftRight_eq_div_pow]; norm_num [FRACBITS]
  rw [e, s, Int.fdiv_eq_ediv _ (by norm_num), tdiv_65536]
  refine ⟨rfl, ?_⟩
  split_ifs with h
  · simp [h]
  · constructor
    · intro h2; right; omega
    · intro h2; omega

/-! ## The frame buffer and the store log: lemmas -/

theorem logged_refl (m : Machine) : logged m m :=
  ⟨[], by simp, rfl⟩

theorem logged_store (m s : Machine) (d : Int) (v : Nat) (h : logged m s) :
    logged m (s.store d v) := by
  obtain ⟨ws, hw, hf⟩ := h
  refine ⟨ws ++ [(d, v)], by simp [Machine.store, hw], ?_⟩
  rw [replay_append, ← hf]
  rfl

theorem logged_fb (m s : Machine) (h : logged m s) : s.fb = replay m.fb (newWrites m s) := by
  obtain ⟨ws, hw, hf⟩ := h
  rw [hf]
  simp [newWrites, hw]

theorem R_DrawColumn_logged (g : Env) (dc : draw_column_vars_t) (m : Machine) :
    logged m (R_DrawColumn g dc m) := by
  unfold R_DrawColumn
  simp only []
  split
  · exact logged_refl m
  · exact doWhileCount_invariant (fun s : ColumnLoop => logged m s.m) _
      (fun s hs => logged_store m s.m s.dest _ hs) _ _ (logged_refl m)

theorem R_DrawTranslatedColumn_logged (g : Env) (dc : draw_column_vars_t) (m : Machine) :
    logged m (R_DrawTranslatedColumn g dc m) := by
  unfold R_DrawTranslatedColumn
  simp only []
  split
  · exact logged_refl m
  · exact doWhileCount_invariant (fun s : ColumnLoop => logged m s.m) _
      (fun s hs => logged_store m s.m s.dest _ hs) _ _ (logged_refl m)

theorem R_DrawFuzzColumn_logged (g : Env) (dc : draw_column_vars_t) (m : Machine) :
    logged m (R_DrawFuzzColumn g dc m) := by
  have hloop : ∀ (n : Nat) (s : ColumnLoop), logged m s.m →
      logged m (doWhileCount (R_DrawFuzzColumn_body g dc) n s).m := by
    intro n s hs
    refine doWhileCount_invariant (fun s : ColumnLoop => logged m s.m) _ ?_ n s hs
    intro s hs
    obtain ⟨ws, hw, hf⟩ := logged_store m s.m s.dest
      (pack (g.fullcolormap (6 * 256 +
        (s.m.fb (s.dest + fuzzoffset g s.m.fuzzpos) &&& 0xff) % 256))) hs
    exact ⟨ws, hw, hf⟩
  unfold R_DrawFuzzColumn
  simp only []
  split_ifs <;> first | exact logged_refl m | exact hloop _ _ (logged_refl m)

theorem R_DrawSpan_logged (g : Env) (ds : draw_span_vars_t) (m : Machine) :
    logged m (R_DrawSpan g ds m) := by
  unfold R_DrawSpan
  exact doWhileCount_invariant (fun s : SpanLoop => logged m s.m) _
    (fun s hs => logged_store m s.m s.dest _ hs) _ _ (logged_refl m)

theorem clear6_mod (v : Int) : clear6 v % 64 = 0 := by
  unfold clear6; omega

theorem clear6_of_mod {v : Int} (h : v % 64 = 0) : clear6 v = v := by
  unfold clear6; omega

theorem toU32_clear6_field (v : Int) : toU32 (clear6 v) / 64 % 65536 = toU32 v / 64 % 65536 := by
  unfold toU32 clear6; omega

theorem packUV_clear6 (a b : Int) : packUV (clear6 a) (clear6 b) = packUV a b := by
  rw [packUV_eq, packUV_eq, toU32_clear6_field, toU32_clear6_field]

theorem vCarries_clear6 (y t : Int) (k : Nat) :
    vCarries (clear6 y) (clear6 t) k = vCarries y t k := by
  rw [vCarries_eq, vCarries_eq, toU32_clear6_field, toU32_clear6_field]

/-- The texel index of the packed accumulator, for all coordinates and steps:
the two-field reference on the values with their low 6 bits cleared, the `u`
start advanced by `64` per carry out of the `v` field. -/
theorem spanSpotAt_eq_cleared (ds : draw_span_vars_t) (k : Nat) :
    spanSpotAt ds k =
      twoFieldSpot (clear6 ds.xfrac + 64 * (vCarries ds.yfrac ds.ystep k : Int))
        (clear6 ds.yfrac) (clear6 ds.xstep) (clear6 ds.ystep) k := by
  have h := spanSpotAt_eq_carried
    { ds with xfrac := clear6 ds.xfrac, yfrac := clear6 ds.yfrac,
              xstep := clear6 ds.xstep, ystep := clear6 ds.ystep } k
    (clear6_mod _) (clear6_mod _)
  simp only [spanSpotAt, packUV_clear6, vCarries_clear6] at h
  exact h

/-! ## The claims -/

/-- C1 (counterexample): on the scenario column (`yl = 5`, `yh = 8`, so
`yh - yl = 3`) `R_DrawColumn` performs four writes, not three, and the
fourth is at row `yh = 8`, column 10. -/
theorem R_DrawColumn_scenario_four_writes :
    scenarioColumn.yh - scenarioColumn.yl = 3 ∧
    (newWrites blank (R_DrawColumn env120 scenarioColumn blank)).length = 4 ∧
    (newWrites blank (R_DrawColumn env120 scenarioColumn blank)).map Prod.fst =
      [5 * 120 + 10, 6 * 120 + 10, 7 * 120 + 10, 8 * 120 + 10] := by
  decide

/-- C1 (amended): for a column with `yl < yh`, `R_DrawColumn` performs exactly
`yh - yl + 1` writes, the `k`-th at offset `yl * byte_pitch + x + k * SCREENWIDTH`
for `k` in `0 .. yh - yl`, the product `yl * byte_pitch` being the `int` product
of the code; when the row stride `byte_pitch` is `SCREENWIDTH` and the product
does not overflow this is row `yl + k`, column `x`, so the last write is at row
`yh`.  The frame buffer after the call is the one before it with these writes
applied in order, and every cell that is not at one of these offsets keeps its
value. -/
theorem R_DrawColumn_write_rows (g : Env) (dc : draw_column_vars_t) (m : Machine)
    (hyl : isInt32 dc.yl) (hyh : isInt32 dc.yh) (h : dc.yl < dc.yh) :
    ((newWrites m (R_DrawColumn g dc m)).length : Int) = dc.yh - dc.yl + 1 ∧
    (newWrites m (R_DrawColumn g dc m)).map Prod.fst =
      (List.range ((dc.yh - dc.yl).toNat + 1)).map
        (fun (k : Nat) => wrap32 (dc.yl * g.byte_pitch) + dc.x + (k : Int) * g.SCREENWIDTH) ∧
    (g.byte_pitch = g.SCREENWIDTH → isInt32 (dc.yl * g.byte_pitch) →
      (newWrites m (R_DrawColumn g dc m)).map Prod.fst =
        (List.range ((dc.yh - dc.yl).toNat + 1)).map
          (fun (k : Nat) => (dc.yl + (k : Int)) * g.byte_pitch + dc.x)) ∧
    (R_DrawColumn g dc m).fb = replay m.fb (newWrites m (R_DrawColumn g dc m)) ∧
    (∀ a : Int,
      (∀ k : Nat, (k : Int) ≤ dc.yh - dc.yl →
        a ≠ wrap32 (dc.yl * g.byte_pitch) + dc.x + (k : Int) * g.SCREENWIDTH) →
      (R_DrawColumn g dc m).fb a = m.fb a) := by
  rw [R_DrawColumn_newWrites g dc m hyl hyh h, R_DrawColumn_run g dc m hyl hyh h]
  refine ⟨?_, ?_, ?_, rfl, ?_⟩
  · rw [columnWrites_length]; omega
  · simp [columnWrites]
  · intro hp hprod
    simp only [columnWrites, List.map_map, hp] at hprod ⊢
    rw [wrap32_of_isInt32 hprod]
    apply List.map_congr_left
    intro k _
    simp only [Function.comp]
    ring
  · intro a ha
    apply replay_of_not_mem
    intro w hw e
    obtain ⟨k, hk, rfl⟩ := columnWrites_mem _ _ _ _ _ _ _ hw
    exact ha k (by omega) e.symm

/-- Witness of `R_DrawColumn_write_rows` on the scenario column. -/
theorem R_DrawColumn_write_rows_witness :
    isInt32 scenarioColumn.yl ∧ isInt32 scenarioColumn.yh ∧
    scenarioColumn.yl < scenarioColumn.yh ∧
    ((newWrites blank (R_DrawColumn env120 scenarioColumn blank)).length : Int) =
        scenarioColumn.yh - scenarioColumn.yl + 1 ∧
    (newWrites blank (R_DrawColumn env120 scenarioColumn blank)).map Prod.fst =
      (List.range ((scenarioColumn.yh - scenarioColumn.yl).toNat + 1)).map
        (fun (k : Nat) => wrap32 (scenarioColumn.yl * env120.byte_pitch) + scenarioColumn.x
          + (k : Int) * env120.SCREENWIDTH) ∧
    (env120.byte_pitch = env120.SCREENWIDTH →
      isInt32 (scenarioColumn.yl * env120.byte_pitch) →
      (newWrites blank (R_DrawColumn env120 scenarioColumn blank)).map Prod.fst =
        (List.range ((scenarioColumn.yh - scenarioColumn.yl).toNat + 1)).map
          (fun (k : Nat) => (scenarioColumn.yl + (k : Int)) * env120.byte_pitch
            + scenarioColumn.x)) ∧
    (R_DrawColumn env120 scenarioColumn blank).fb =
      replay blank.fb (newWrites blank (R_DrawColumn env120 scenarioColumn blank)) ∧
    (∀ a : Int,
      (∀ k : Nat, (k : Int) ≤ scenarioColumn.yh - scenarioColumn.yl →
        a ≠ wrap32 (scenarioColumn.yl * env120.byte_pitch) + scenarioColumn.x
          + (k : Int) * env120.SCREENWIDTH) →
      (R_DrawColumn env120 scenarioColumn blank).fb a = blank.fb a) :=
  ⟨by decide, by decide, by decide,
    R_DrawColumn_write_rows env120 scenarioColumn blank (by decide) (by decide) (by decide)⟩

/-- C2: for a column with `yl >= yh`, `R_DrawColumn` and
`R_DrawTranslatedColumn` return the machine they were given: no store is
logged and the frame buffer is the one before the call. -/
theorem column_drawers_zero_length (g : Env) (dc : draw_column_vars_t) (m : Machine)
    (h : dc.yl ≥ dc.yh) :
    (R_DrawColumn g dc m = m ∧ newWrites m (R_DrawColumn g dc m) = [] ∧
      (R_DrawColumn g dc m).fb = m.fb) ∧
    (R_DrawTranslatedColumn g dc m = m ∧ newWrites m (R_DrawTranslatedColumn g dc m) = [] ∧
      (R_DrawTranslatedColumn g dc m).fb = m.fb) := by
  have h1 : R_DrawColumn g dc m = m := by unfold R_DrawColumn; simp [h]
  have h2 : R_DrawTranslatedColumn g dc m = m := by unfold R_DrawTranslatedColumn; simp [h]
  rw [h1, h2]
  simp [newWrites]

/-- Witness of `column_drawers_zero_length`: the scenario column with `yh`
lowered to `yl`. -/
theorem column_drawers_zero_length_witness :
    ({ scenarioColumn with yh := 5 } : draw_column_vars_t).yl ≥
      ({ scenarioColumn with yh := 5 } : draw_column_vars_t).yh ∧
    (R_DrawColumn env120 { scenarioColumn with yh := 5 } blank = blank ∧
      newWrites blank (R_DrawColumn env120 { scenarioColumn with yh := 5 } blank) = [] ∧
      (R_DrawColumn env120 { scenarioColumn with yh := 5 } blank).fb = blank.fb) ∧
    (R_DrawTranslatedColumn env120 { scenarioColumn with yh := 5 } blank = blank ∧
      newWrites blank (R_DrawTranslatedColumn env120 { scenarioColumn with yh := 5 } blank)
        = [] ∧
      (R_DrawTranslatedColumn env120 { scenarioColumn with yh := 5 } blank).fb = blank.fb) :=
  ⟨by decide, column_drawers_zero_length env120 { scenarioColumn with yh := 5 } blank
    (by decide)⟩

/-- C3: for a column with `yl < yh`, `R_DrawColumn` writes `count + 1` pixels,
`count = yh - yl`, and for every `k` in `0 .. count` the `k`-th value written is
the packed form of `colormap[source[(frac_k >> FRACBITS) & 127]]` with
`frac_k = texturemid + (yl - centery + k) * iscale` in 32-bit arithmetic.  The
writes reach the frame buffer: it is the one before the call with the
`count + 1` writes applied in order, and, the stride `SCREENWIDTH` not being 0,
the cell of pixel `k` holds the `k`-th value after the call. -/
theorem R_DrawColumn_values (g : Env) (dc : draw_column_vars_t) (m : Machine)
    (hyl : isInt32 dc.yl) (hyh : isInt32 dc.yh) (h : dc.yl < dc.yh) :
    ((newWrites m (R_DrawColumn g dc m)).length : Int) = (dc.yh - dc.yl) + 1 ∧
    (∀ k : Nat, (k : Int) ≤ dc.yh - dc.yl →
      (newWrites m (R_DrawColumn g dc m))[k]? =
        some (wrap32 (dc.yl * g.byte_pitch) + dc.x + (k : Int) * g.SCREENWIDTH,
          pack (dc.colormap (dc.source
            ((toU32 (fracAt g dc k >>> FRACBITS) &&& 127 : Nat) : Int))))) ∧
    (R_DrawColumn g dc m).fb = replay m.fb (newWrites m (R_DrawColumn g dc m)) ∧
    (g.SCREENWIDTH ≠ 0 → ∀ k : Nat, (k : Int) ≤ dc.yh - dc.yl →
      (R_DrawColumn g dc m).fb
          (wrap32 (dc.yl * g.byte_pitch) + dc.x + (k : Int) * g.SCREENWIDTH) =
        pack (dc.colormap (dc.source
          ((toU32 (fracAt g dc k >>> FRACBITS) &&& 127 : Nat) : Int)))) := by
  have e : ∀ k : Nat, dc.texturemid + (dc.yl - g.centery) * dc.iscale + (k : Int) * dc.iscale =
      dc.texturemid + (dc.yl - g.centery + (k : Int)) * dc.iscale := fun k => by ring
  rw [R_DrawColumn_newWrites g dc m hyl hyh h, R_DrawColumn_run g dc m hyl hyh h]
  refine ⟨by rw [columnWrites_length]; omega, ?_, rfl, ?_⟩
  · intro k hk
    rw [columnWrites_get _ _ _ _ _ _ k (by omega)]
    simp only [columnUnit, columnTexel, fracAt, e k]
  · intro hs k hk
    dsimp only
    rw [replay_columnWrites_at _ _ _ _ _ _ _ k hs (by omega)]
    simp only [columnUnit, columnTexel, fracAt, e k]

/-- Witness of `R_DrawColumn_values` on the scenario column. -/
theorem R_DrawColumn_values_witness :
    isInt32 scenarioColumn.yl ∧ isInt32 scenarioColumn.yh ∧
    scenarioColumn.yl < scenarioColumn.yh ∧
    ((newWrites blank (R_DrawColumn env120 scenarioColumn blank)).length : Int) =
        (scenarioColumn.yh - scenarioColumn.yl) + 1 ∧
    (∀ k : Nat, (k : Int) ≤ scenarioColumn.yh - scenarioColumn.yl →
      (newWrites blank (R_DrawColumn env120 scenarioColumn blank))[k]? =
        some (wrap32 (scenarioColumn.yl * env120.byte_pitch) + scenarioColumn.x
            + (k : Int) * env120.SCREENWIDTH,
          pack (scenarioColumn.colormap (scenarioColumn.source
            ((toU32 (fracAt env120 scenarioColumn k >>> FRACBITS) &&& 127 : Nat) : Int))))) ∧
    (R_DrawColumn env120 scenarioColumn blank).fb =
      replay blank.fb (newWrites blank (R_DrawColumn env120 scenarioColumn blank)) ∧
    (env120.SCREENWIDTH ≠ 0 → ∀ k : Nat, (k : Int) ≤ scenarioColumn.yh - scenarioColumn.yl →
      (R_DrawColumn env120 scenarioColumn blank).fb
          (wrap32 (scenarioColumn.yl * env120.byte_pitch) + scenarioColumn.x
            + (k : Int) * env120.SCREENWIDTH) =
        pack (scenarioColumn.colormap (scenarioColumn.source
          ((toU32 (fracAt env120 scenarioColumn k >>> FRACBITS) &&& 127 : Nat) : Int)))) :=
  ⟨by decide, by decide, by decide,
    R_DrawColumn_values env120 scenarioColumn blank (by decide) (by decide) (by decide)⟩

/-- C4 (counterexample): with a row stride of 128 units and `SCREENWIDTH = 120`
the second write (`k = 1`) of the scenario column lands at offset
`5 * 128 + 10 + 120 = 770`, not at `(5 + 1) * 128 + 10 = 778`. -/
theorem R_DrawColumn_stride_not_pitch :
    ((newWrites blank (R_DrawColumn envPitch128 scenarioColumn blank))[1]?).map Prod.fst =
      some 770 ∧
    (scenarioColumn.yl + 1) * envPitch128.byte_pitch + scenarioColumn.x = 778 := by
  decide

/-- C4 (amended): for every row stride `byte_pitch` and every pixel index `k`
that `R_DrawColumn` writes, the `k`-th write lands at offset
`yl * byte_pitch + x + k * SCREENWIDTH` from the base pointer, the product
`yl * byte_pitch` being the `int` product of the code: the destination advances
by the constant `SCREENWIDTH` per pixel, which is one full row stride, and the
offset `(yl + k) * byte_pitch + x`, when `byte_pitch = SCREENWIDTH` and the
product does not overflow.  The frame buffer after the call is the one before
it with the writes applied in order, and, `SCREENWIDTH` not being 0, the cell at
that offset holds the unit of the `k`-th write. -/
theorem R_DrawColumn_dest_stride (g : Env) (dc : draw_column_vars_t) (m : Machine)
    (hyl : isInt32 dc.yl) (hyh : isInt32 dc.yh) (h : dc.yl < dc.yh)
    (k : Nat) (hk : (k : Int) ≤ dc.yh - dc.yl) :
    ((newWrites m (R_DrawColumn g dc m))[k]?).map Prod.fst =
      some (wrap32 (dc.yl * g.byte_pitch) + dc.x + (k : Int) * g.SCREENWIDTH) ∧
    (g.byte_pitch = g.SCREENWIDTH → isInt32 (dc.yl * g.byte_pitch) →
      ((newWrites m (R_DrawColumn g dc m))[k]?).map Prod.fst =
        some ((dc.yl + (k : Int)) * g.byte_pitch + dc.x)) ∧
    (R_DrawColumn g dc m).fb = replay m.fb (newWrites m (R_DrawColumn g dc m)) ∧
    (g.SCREENWIDTH ≠ 0 →
      ((newWrites m (R_DrawColumn g dc m))[k]?).map Prod.snd =
        some ((R_DrawColumn g dc m).fb
          (wrap32 (dc.yl * g.byte_pitch) + dc.x + (k : Int) * g.SCREENWIDTH))) := by
  rw [R_DrawColumn_newWrites g dc m hyl hyh h, R_DrawColumn_run g dc m hyl hyh h,
    columnWrites_get _ _ _ _ _ _ k (by omega)]
  refine ⟨rfl, fun hp hprod => ?_, rfl, fun hs => ?_⟩
  · simp only [Option.map_some', hp] at hprod ⊢
    rw [wrap32_of_isInt32 hprod]
    congr 1
    ring
  · dsimp only
    rw [replay_columnWrites_at _ _ _ _ _ _ _ k hs (by omega)]
    rfl

/-- Witness of `R_DrawColumn_dest_stride`: the last pixel (`k = 3`) of the
scenario column. -/
theorem R_DrawColumn_dest_stride_witness :
    isInt32 scenarioColumn.yl ∧ isInt32 scenarioColumn.yh ∧
    scenarioColumn.yl < scenarioColumn.yh ∧
    ((3 : Nat) : Int) ≤ scenarioColumn.yh - scenarioColumn.yl ∧
    ((newWrites blank (R_DrawColumn env120 scenarioColumn blank))[3]?).map Prod.fst =
      some (wrap32 (scenarioColumn.yl * env120.byte_pitch) + scenarioColumn.x
        + ((3 : Nat) : Int) * env120.SCREENWIDTH) ∧
    (env120.byte_pitch = env120.SCREENWIDTH →
      isInt32 (scenarioColumn.yl * env120.byte_pitch) →
      ((newWrites blank (R_DrawColumn env120 scenarioColumn blank))[3]?).map Prod.fst =
        some ((scenarioColumn.yl + ((3 : Nat) : Int)) * env120.byte_pitch
          + scenarioColumn.x)) ∧
    (R_DrawColumn env120 scenarioColumn blank).fb =
      replay blank.fb (newWrites blank (R_DrawColumn env120 scenarioColumn blank)) ∧
    (env120.SCREENWIDTH ≠ 0 →
      ((newWrites blank (R_DrawColumn env120 scenarioColumn blank))[3]?).map Prod.snd =
        some ((R_DrawColumn env120 scenarioColumn blank).fb
          (wrap32 (scenarioColumn.yl * env120.byte_pitch) + scenarioColumn.x
            + ((3 : Nat) : Int) * env120.SCREENWIDTH))) :=
  ⟨by decide, by decide, by decide, by decide,
    R_DrawColumn_dest_stride env120 scenarioColumn blank (by decide) (by decide) (by decide)
      3 (by decide)⟩

/-- C5: for a span with `x1 <= x2`, `R_DrawSpan` writes exactly `x2 - x1 + 1`
pixels, the `k`-th at offset `y * byte_pitch + x1 + k` for `k` in `0 .. x2 - x1`
(consecutive positions of row `y` from column `x1`); each of these cells then
holds the unit written there, and no other frame buffer cell is changed.  The
product `y * byte_pitch`, which the code computes in `int`, is taken in the
range of `int`. -/
theorem R_DrawSpan_writes_row (g : Env) (ds : draw_span_vars_t) (m : Machine)
    (hx1 : isInt32 ds.x1) (hx2 : isInt32 ds.x2) (hprod : isInt32 (ds.y * g.byte_pitch))
    (h : ds.x1 ≤ ds.x2) :
    ((newWrites m (R_DrawSpan g ds m)).length : Int) = ds.x2 - ds.x1 + 1 ∧
    (∀ k : Nat, (k : Int) ≤ ds.x2 - ds.x1 →
      ∃ v, (newWrites m (R_DrawSpan g ds m))[k]? = some (ds.y * g.byte_pitch + ds.x1 + k, v) ∧
        (R_DrawSpan g ds m).fb (ds.y * g.byte_pitch + ds.x1 + k) = v) ∧
    (∀ a : Int, (∀ k : Nat, (k : Int) ≤ ds.x2 - ds.x1 → a ≠ ds.y * g.byte_pitch + ds.x1 + k) →
      (R_DrawSpan g ds m).fb a = m.fb a) := by
  have hn : toU32 (wrap32 (ds.x2 - ds.x1)) = (ds.x2 - ds.x1).toNat := toU32_count hx1 hx2 h
  rw [R_DrawSpan_newWrites, R_DrawSpan_run, hn, wrap32_of_isInt32 hprod]
  refine ⟨by rw [spanWrites_length]; omega, ?_, ?_⟩
  · intro k hk
    have hk' : k < (ds.x2 - ds.x1).toNat + 1 := by omega
    exact ⟨_, spanWrites_get _ _ _ _ _ k hk', replay_spanWrites_at _ _ _ _ _ _ k hk'⟩
  · intro a ha
    apply replay_of_not_mem
    intro w hw e
    obtain ⟨k, hk, rfl⟩ := spanWrites_mem _ _ _ _ _ _ hw
    exact ha k (by omega) e.symm

/-- Witness of `R_DrawSpan_writes_row` on the scenario span. -/
theorem R_DrawSpan_writes_row_witness :
    isInt32 scenarioSpan.x1 ∧ isInt32 scenarioSpan.x2 ∧
    isInt32 (scenarioSpan.y * env120.byte_pitch) ∧ scenarioSpan.x1 ≤ scenarioSpan.x2 ∧
    ((newWrites blank (R_DrawSpan env120 scenarioSpan blank)).length : Int) =
      scenarioSpan.x2 - scenarioSpan.x1 + 1 ∧
    (∀ k : Nat, (k : Int) ≤ scenarioSpan.x2 - scenarioSpan.x1 →
      ∃ v, (newWrites blank (R_DrawSpan env120 scenarioSpan blank))[k]? =
          some (scenarioSpan.y * env120.byte_pitch + scenarioSpan.x1 + k, v) ∧
        (R_DrawSpan env120 scenarioSpan blank).fb
          (scenarioSpan.y * env120.byte_pitch + scenarioSpan.x1 + k) = v) ∧
    (∀ a : Int, (∀ k : Nat, (k : Int) ≤ scenarioSpan.x2 - scenarioSpan.x1 →
        a ≠ scenarioSpan.y * env120.byte_pitch + scenarioSpan.x1 + k) →
      (R_DrawSpan env120 scenarioSpan blank).fb a = blank.fb a) :=
  ⟨by decide, by decide, by decide, by decide,
    R_DrawSpan_writes_row env120 scenarioSpan blank (by decide) (by decide) (by decide)
      (by decide)⟩

/-- C7: for a span with `xstep = ystep = 0`, whatever `xfrac`, `yfrac` and the
length are, every unit `R_DrawSpan` writes is the packed form of
`colormap[source[spot0]]` for the one index
`spot0 = ((xfrac >> 16) & 63) | (((yfrac >> 16) & 63) << 6)`.  The frame buffer
after the call is the one before it with the writes applied in order, and
every cell written holds that unit. -/
theorem R_DrawSpan_zero_step (g : Env) (ds : draw_span_vars_t) (m : Machine)
    (hx : ds.xstep = 0) (hy : ds.ystep = 0) :
    (∀ w ∈ newWrites m (R_DrawSpan g ds m),
      w.2 = pack (ds.colormap (ds.source (spot0 ds.xfrac ds.yfrac)))) ∧
    (R_DrawSpan g ds m).fb = replay m.fb (newWrites m (R_DrawSpan g ds m)) ∧
    (∀ k : Nat, k < (newWrites m (R_DrawSpan g ds m)).length →
      (R_DrawSpan g ds m).fb (wrap32 (ds.y * g.byte_pitch) + ds.x1 + (k : Int)) =
        pack (ds.colormap (ds.source (spot0 ds.xfrac ds.yfrac)))) := by
  have hu : ∀ k : Nat, spanUnit ds (spanPosition (packUV ds.xfrac ds.yfrac) 0 k) =
      pack (ds.colormap (ds.source (spot0 ds.xfrac ds.yfrac))) := fun k => by
    simp only [spanUnit, spanPosition_zero_step _ _ (packUV_lt _ _), spanSpot_packUV, spot0]
  refine ⟨?_, logged_fb _ _ (R_DrawSpan_logged g ds m), ?_⟩
  · intro w hw
    rw [R_DrawSpan_newWrites, hx, hy, packUV_zero] at hw
    obtain ⟨k, _, rfl⟩ := spanWrites_mem _ _ _ _ _ _ hw
    exact hu k
  · intro k hk
    rw [R_DrawSpan_newWrites, spanWrites_length] at hk
    rw [R_DrawSpan_run]
    dsimp only
    rw [replay_spanWrites_at _ _ _ _ _ _ k hk, hx, hy, packUV_zero]
    exact hu k

/-- Witness of `R_DrawSpan_zero_step`: a span of 64 pixels with both steps 0
that starts at texel (3, 2) of the tile. -/
theorem R_DrawSpan_zero_step_witness :
    stillSpan.xstep = 0 ∧ stillSpan.ystep = 0 ∧
    (∀ w ∈ newWrites blank (R_DrawSpan env120 stillSpan blank),
      w.2 = pack (stillSpan.colormap (stillSpan.source
        (spot0 stillSpan.xfrac stillSpan.yfrac)))) ∧
    (R_DrawSpan env120 stillSpan blank).fb =
      replay blank.fb (newWrites blank (R_DrawSpan env120 stillSpan blank)) ∧
    (∀ k : Nat, k < (newWrites blank (R_DrawSpan env120 stillSpan blank)).length →
      (R_DrawSpan env120 stillSpan blank).fb
          (wrap32 (stillSpan.y * env120.byte_pitch) + stillSpan.x1 + (k : Int)) =
        pack (stillSpan.colormap (stillSpan.source
          (spot0 stillSpan.xfrac stillSpan.yfrac)))) :=
  ⟨rfl, rfl, R_DrawSpan_zero_step env120 stillSpan blank rfl rfl⟩

/-- C8: for a span with `xfrac = 0`, `yfrac = 0`, `ystep = 0` and
`xstep = 1 << FRACBITS` (one texel per pixel), for every `k` in `0 .. 63` with
`k <= x2 - x1` the `k`-th pixel written is the packed form of
`colormap[source[k]]`: the position word gives `u = k` and `v = 0`.  The frame
buffer after the call is the one before it with the writes applied in order,
and the cell of pixel `k` holds that unit. -/
theorem R_DrawSpan_texel_per_pixel (g : Env) (ds : draw_span_vars_t) (m : Machine)
    (hx1 : isInt32 ds.x1) (hx2 : isInt32 ds.x2)
    (hxf : ds.xfrac = 0) (hyf : ds.yfrac = 0) (hys : ds.ystep = 0)
    (hxs : ds.xstep = 2 ^ FRACBITS) (k : Nat) (hk : k ≤ 63) (hk2 : (k : Int) ≤ ds.x2 - ds.x1) :
    ((newWrites m (R_DrawSpan g ds m))[k]?).map Prod.snd =
      some (pack (ds.colormap (ds.source k))) ∧
    spanPosition (packUV ds.xfrac ds.yfrac) (packUV ds.xstep ds.ystep) k >>> 26 = k ∧
    (spanPosition (packUV ds.xfrac ds.yfrac) (packUV ds.xstep ds.ystep) k >>> 4) &&& 0x0fc0
      = 0 ∧
    (R_DrawSpan g ds m).fb = replay m.fb (newWrites m (R_DrawSpan g ds m)) ∧
    (R_DrawSpan g ds m).fb (wrap32 (ds.y * g.byte_pitch) + ds.x1 + (k : Int)) =
      pack (ds.colormap (ds.source k)) := by
  have hfb := logged_fb _ _ (R_DrawSpan_logged g ds m)
  have hstep : ds.xstep = 65536 := by rw [hxs]; norm_num [FRACBITS]
  have hn : toU32 (wrap32 (ds.x2 - ds.x1)) = (ds.x2 - ds.x1).toNat :=
    toU32_count hx1 hx2 (by omega)
  have hpos : spanPosition 0 67108864 k = k * 67108864 := by
    unfold spanPosition; omega
  have hspot : spanSpot (k * 67108864) = k := by
    rw [spanSpot_eq _ (by omega)]; omega
  have hcell : (R_DrawSpan g ds m).fb (wrap32 (ds.y * g.byte_pitch) + ds.x1 + (k : Int)) =
      pack (ds.colormap (ds.source k)) := by
    rw [R_DrawSpan_run, hn]
    dsimp only
    rw [replay_spanWrites_at _ _ _ _ _ _ k (by omega), hxf, hyf, hys, hstep,
      packUV_zero, packUV_texel_step, hpos]
    simp only [spanUnit, hspot]
  refine ⟨?_, ?_, ?_, hfb, hcell⟩
  · rw [R_DrawSpan_newWrites, hn, spanWrites_get _ _ _ _ _ k (by omega), hxf, hyf, hys,
      hstep, packUV_zero, packUV_texel_step, hpos]
    simp only [Option.map_some', spanUnit, hspot]
  · rw [hxf, hyf, hys, hstep, packUV_zero, packUV_texel_step, hpos,
      Nat.shiftRight_eq_div_pow]
    omega
  · rw [hxf, hyf, hys, hstep, packUV_zero, packUV_texel_step, hpos,
      Nat.shiftRight_eq_div_pow, and_0fc0]
    omega

/-- Witness of `R_DrawSpan_texel_per_pixel`: the last pixel (`k = 63`) of the
scenario span. -/
theorem R_DrawSpan_texel_per_pixel_witness :
    isInt32 scenarioSpan.x1 ∧ isInt32 scenarioSpan.x2 ∧
    scenarioSpan.xfrac = 0 ∧ scenarioSpan.yfrac = 0 ∧ scenarioSpan.ystep = 0 ∧
    scenarioSpan.xstep = 2 ^ FRACBITS ∧ 63 ≤ 63 ∧
    ((63 : Nat) : Int) ≤ scenarioSpan.x2 - scenarioSpan.x1 ∧
    ((newWrites blank (R_DrawSpan env120 scenarioSpan blank))[63]?).map Prod.snd =
      some (pack (scenarioSpan.colormap (scenarioSpan.source 63))) ∧
    spanPosition (packUV scenarioSpan.xfrac scenarioSpan.yfrac)
      (packUV scenarioSpan.xstep scenarioSpan.ystep) 63 >>> 26 = 63 ∧
    (spanPosition (packUV scenarioSpan.xfrac scenarioSpan.yfrac)
      (packUV scenarioSpan.xstep scenarioSpan.ystep) 63 >>> 4) &&& 0x0fc0 = 0 ∧
    (R_DrawSpan env120 scenarioSpan blank).fb =
      replay blank.fb (newWrites blank (R_DrawSpan env120 scenarioSpan blank)) ∧
    (R_DrawSpan env120 scenarioSpan blank).fb
        (wrap32 (scenarioSpan.y * env120.byte_pitch) + scenarioSpan.x1 + ((63 : Nat) : Int)) =
      pack (scenarioSpan.colormap (scenarioSpan.source 63)) :=
  ⟨by decide, by decide, rfl, rfl, rfl, by decide, by decide, by decide,
    R_DrawSpan_texel_per_pixel env120 scenarioSpan blank (by decide) (by decide) rfl rfl rfl
      (by decide) 63 (by decide) (by decide)⟩

/-- C9: the source index of the column drawer has period 128 texels: for every
`frac`, `(frac >> FRACBITS) & 127` is the same for `frac` and for
`frac + (128 << FRACBITS)` taken in 32-bit arithmetic, and so are the byte
sampled from `source` and the unit written. -/
theorem columnTexel_period_128 (dc : draw_column_vars_t) (frac : Int) :
    columnTexel (wrap32 (frac + 128 * 2 ^ FRACBITS)) = columnTexel frac ∧
    dc.source (columnTexel (wrap32 (frac + 128 * 2 ^ FRACBITS))) =
      dc.source (columnTexel frac) ∧
    columnUnit dc (wrap32 (frac + 128 * 2 ^ FRACBITS)) = columnUnit dc frac := by
  have key : columnTexel (wrap32 (frac + 128 * 2 ^ FRACBITS)) = columnTexel frac := by
    unfold columnTexel
    rw [and_127, and_127, Int.shiftRight_eq_div_pow, Int.shiftRight_eq_div_pow]
    unfold toU32 wrap32 FRACBITS
    norm_num
    omega
  refine ⟨key, ?_, ?_⟩
  · rw [key]
  · unfold columnUnit; rw [key]

/-- C10: when the lookup tables hold 8-bit values, every 16-bit unit written by
`R_DrawColumn`, `R_DrawFuzzColumn`, `R_DrawTranslatedColumn` and `R_DrawSpan`
satisfies `(unit & 0xFF) == (unit >> 8)`, and the frame buffer each of them
leaves is the one before the call with its written units applied in order. -/
theorem written_units_replicated (g : Env) (dc : draw_column_vars_t) (ds : draw_span_vars_t)
    (m : Machine) (hc : ∀ i, dc.colormap i < 256) (hf : ∀ i, g.fullcolormap i < 256)
    (hs : ∀ i, ds.colormap i < 256) :
    (∀ w ∈ newWrites m (R_DrawColumn g dc m), w.2 &&& 0xFF = w.2 >>> 8) ∧
    (∀ w ∈ newWrites m (R_DrawFuzzColumn g dc m), w.2 &&& 0xFF = w.2 >>> 8) ∧
    (∀ w ∈ newWrites m (R_DrawTranslatedColumn g dc m), w.2 &&& 0xFF = w.2 >>> 8) ∧
    (∀ w ∈ newWrites m (R_DrawSpan g ds m), w.2 &&& 0xFF = w.2 >>> 8) ∧
    (R_DrawColumn g dc m).fb = replay m.fb (newWrites m (R_DrawColumn g dc m)) ∧
    (R_DrawFuzzColumn g dc m).fb = replay m.fb (newWrites m (R_DrawFuzzColumn g dc m)) ∧
    (R_DrawTranslatedColumn g dc m).fb =
      replay m.fb (newWrites m (R_DrawTranslatedColumn g dc m)) ∧
    (R_DrawSpan g ds m).fb = replay m.fb (newWrites m (R_DrawSpan g ds m)) :=
  ⟨onlyReplicated_newWrites m _ (R_DrawColumn_onlyReplicated g dc m hc),
    onlyReplicated_newWrites m _ (R_DrawFuzzColumn_onlyReplicated g dc m hf),
    onlyReplicated_newWrites m _ (R_DrawTranslatedColumn_onlyReplicated g dc m hc),
    onlyReplicated_newWrites m _ (R_DrawSpan_onlyReplicated g ds m hs),
    logged_fb _ _ (R_DrawColumn_logged g dc m),
    logged_fb _ _ (R_DrawFuzzColumn_logged g dc m),
    logged_fb _ _ (R_DrawTranslatedColumn_logged g dc m),
    logged_fb _ _ (R_DrawSpan_logged g ds m)⟩

/-- Witness of `written_units_replicated`: tables holding `i mod 256`, the
scenario column and the scenario span. -/
theorem written_units_replicated_witness :
    (∀ i, byteColumn.colormap i < 256) ∧ (∀ i, byteEnv.fullcolormap i < 256) ∧
    (∀ i, byteSpan.colormap i < 256) ∧
    (∀ w ∈ newWrites blank (R_DrawColumn byteEnv byteColumn blank), w.2 &&& 0xFF = w.2 >>> 8) ∧
    (∀ w ∈ newWrites blank (R_DrawFuzzColumn byteEnv byteColumn blank),
      w.2 &&& 0xFF = w.2 >>> 8) ∧
    (∀ w ∈ newWrites blank (R_DrawTranslatedColumn byteEnv byteColumn blank),
      w.2 &&& 0xFF = w.2 >>> 8) ∧
    (∀ w ∈ newWrites blank (R_DrawSpan byteEnv byteSpan blank), w.2 &&& 0xFF = w.2 >>> 8) ∧
    (R_DrawColumn byteEnv byteColumn blank).fb =
      replay blank.fb (newWrites blank (R_DrawColumn byteEnv byteColumn blank)) ∧
    (R_DrawFuzzColumn byteEnv byteColumn blank).fb =
      replay blank.fb (newWrites blank (R_DrawFuzzColumn byteEnv byteColumn blank)) ∧
    (R_DrawTranslatedColumn byteEnv byteColumn blank).fb =
      replay blank.fb (newWrites blank (R_DrawTranslatedColumn byteEnv byteColumn blank)) ∧
    (R_DrawSpan byteEnv byteSpan blank).fb =
      replay blank.fb (newWrites blank (R_DrawSpan byteEnv byteSpan blank)) :=
  ⟨fun i => Nat.mod_lt i (by decide), fun i => Nat.mod_lt i (by decide),
    fun i => Nat.mod_lt i (by decide),
    written_units_replicated byteEnv byteColumn byteSpan blank
      (fun i => Nat.mod_lt i (by decide)) (fun i => Nat.mod_lt i (by decide))
      (fun i => Nat.mod_lt i (by decide))⟩

/-- C11 (the code at the failing input): on a fuzz column with `yl = 0`, `yh = 3`
the first store of `R_DrawFuzzColumn` is at offset `0 * 120 + 10`, row 0 of
column 10, and that cell, 7 before the call, holds 1799 after it. -/
theorem R_DrawFuzzColumn_top_row_written :
    fuzzTopColumn.yl = 0 ∧
    (newWrites grey (R_DrawFuzzColumn byteEnv fuzzTopColumn grey)).map Prod.fst =
      [0 * 120 + 10, 1 * 120 + 10, 2 * 120 + 10] ∧
    grey.fb (0 * 120 + 10) = 7 ∧
    (R_DrawFuzzColumn byteEnv fuzzTopColumn grey).fb (0 * 120 + 10) = 1799 := by
  decide

/-- C12 (counterexample): on a fuzz column with `yl = 156` and
`yh = viewheight - 1 = 159` the last store of `R_DrawFuzzColumn` is at row
`viewheight - 2 = 158` of column 10, not at row `viewheight - 3`. -/
theorem R_DrawFuzzColumn_bottom_last_row :
    fuzzBottomColumn.yh = byteEnv.viewheight - 1 ∧
    ((newWrites grey (R_DrawFuzzColumn byteEnv fuzzBottomColumn grey)).getLast?).map Prod.fst =
      some ((byteEnv.viewheight - 2) * byteEnv.byte_pitch + fuzzBottomColumn.x) ∧
    (byteEnv.viewheight - 2) * byteEnv.byte_pitch + fuzzBottomColumn.x ≠
      (byteEnv.viewheight - 3) * byteEnv.byte_pitch + fuzzBottomColumn.x := by
  decide

/-- C12 (amended): for a fuzz column with `yl` not 0, `yh = viewheight - 1` and
a clamped range that is not empty (`yl < viewheight - 2`), drawn from a fuzz
position in `0 .. 49`, with the row stride `byte_pitch` equal to `SCREENWIDTH`
and not 0 and the product `yl * byte_pitch` in the range of `int`, the last pixel
`R_DrawFuzzColumn` writes is at row `viewheight - 2` of column `x`, and no pixel
is written at row `viewheight - 1` of that column; the frame buffer after the
call is the one before it with the writes applied in order, so the cell at row
`viewheight - 1` keeps its value. -/
theorem R_DrawFuzzColumn_last_row (g : Env) (dc : draw_column_vars_t) (m : Machine)
    (hyl : isInt32 dc.yl) (hv1 : isInt32 (g.viewheight - 1)) (hv2 : isInt32 (g.viewheight - 2))
    (hprod : isInt32 (dc.yl * g.byte_pitch))
    (hf0 : 0 ≤ m.fuzzpos) (hf1 : m.fuzzpos < FUZZTABLE)
    (h0 : dc.yl ≠ 0) (hyh : dc.yh = g.viewheight - 1) (hne : dc.yl < g.viewheight - 2)
    (hp : g.byte_pitch = g.SCREENWIDTH) (hsw : g.SCREENWIDTH ≠ 0) :
    ((newWrites m (R_DrawFuzzColumn g dc m)).getLast?).map Prod.fst =
      some ((g.viewheight - 2) * g.byte_pitch + dc.x) ∧
    (∀ w ∈ newWrites m (R_DrawFuzzColumn g dc m),
      w.1 ≠ (g.viewheight - 1) * g.byte_pitch + dc.x) ∧
    (R_DrawFuzzColumn g dc m).fb = replay m.fb (newWrites m (R_DrawFuzzColumn g dc m)) ∧
    (R_DrawFuzzColumn g dc m).fb ((g.viewheight - 1) * g.byte_pitch + dc.x) =
      m.fb ((g.viewheight - 1) * g.byte_pitch + dc.x) ∧
    0 ≤ (R_DrawFuzzColumn g dc m).fuzzpos ∧ (R_DrawFuzzColumn g dc m).fuzzpos < FUZZTABLE := by
  have hl : fuzz_dc_yl dc = dc.yl := by unfold fuzz_dc_yl; simp [h0]
  have hh : fuzz_dc_yh g dc = g.viewheight - 2 := by
    rw [fuzz_dc_yh_of_bottom g dc hv1 hv2]; simp [hyh]
  have hn : toU32 (wrap32 (g.viewheight - 2 - dc.yl)) = (g.viewheight - 2 - dc.yl).toNat :=
    toU32_count hyl hv2 hne.le
  have hnot : ∀ w ∈ fuzzWrites g m.fb (dc.yl * g.byte_pitch + dc.x) m.fuzzpos
      ((g.viewheight - 2 - dc.yl).toNat + 1), w.1 ≠ (g.viewheight - 1) * g.byte_pitch + dc.x := by
    intro w hw e
    have hmem : w.1 ∈ (fuzzWrites g m.fb (dc.yl * g.byte_pitch + dc.x) m.fuzzpos
        ((g.viewheight - 2 - dc.yl).toNat + 1)).map Prod.fst := List.mem_map_of_mem _ hw
    rw [fuzzWrites_offsets] at hmem
    simp only [List.mem_map, List.mem_range] at hmem
    obtain ⟨k, hk, hk2⟩ := hmem
    rw [← hk2, hp] at e
    have e2 : (dc.yl + (k : Int) - (g.viewheight - 1)) * g.SCREENWIDTH = 0 := by
      linear_combination e
    rcases mul_eq_zero.mp e2 with h3 | h3
    · omega
    · exact hsw h3
  rw [R_DrawFuzzColumn_run g dc m (by rw [hl, hh]; exact hne), newWrites_append, hl, hh, hn,
    wrap32_of_isInt32 hprod]
  refine ⟨?_, hnot, rfl, ?_, ?_⟩
  · rw [List.getLast?_eq_getElem?, fuzzWrites_length, Nat.add_sub_cancel,
      fuzzWrites_get _ _ _ _ _ _ (Nat.lt_succ_self _)]
    simp only [Option.map_some', hp]
    congr 1
    rw [Int.toNat_of_nonneg (by omega)]
    ring
  · dsimp only
    exact replay_of_not_mem _ _ _ hnot
  · dsimp only
    rw [fuzzNext_iterate _ hf0 hf1]
    unfold FUZZTABLE
    omega

/-- Witness of `R_DrawFuzzColumn_last_row`: the column with `yl = 156`,
`yh = 159` in a view of 160 rows. -/
theorem R_DrawFuzzColumn_last_row_witness :
    isInt32 fuzzBottomColumn.yl ∧ isInt32 (byteEnv.viewheight - 1) ∧
    isInt32 (byteEnv.viewheight - 2) ∧
    isInt32 (fuzzBottomColumn.yl * byteEnv.byte_pitch) ∧
    0 ≤ grey.fuzzpos ∧ grey.fuzzpos < FUZZTABLE ∧ fuzzBottomColumn.yl ≠ 0 ∧
    fuzzBottomColumn.yh = byteEnv.viewheight - 1 ∧
    fuzzBottomColumn.yl < byteEnv.viewheight - 2 ∧
    byteEnv.byte_pitch = byteEnv.SCREENWIDTH ∧ byteEnv.SCREENWIDTH ≠ 0 ∧
    ((newWrites grey (R_DrawFuzzColumn byteEnv fuzzBottomColumn grey)).getLast?).map Prod.fst =
      some ((byteEnv.viewheight - 2) * byteEnv.byte_pitch + fuzzBottomColumn.x) ∧
    (∀ w ∈ newWrites grey (R_DrawFuzzColumn byteEnv fuzzBottomColumn grey),
      w.1 ≠ (byteEnv.viewheight - 1) * byteEnv.byte_pitch + fuzzBottomColumn.x) ∧
    (R_DrawFuzzColumn byteEnv fuzzBottomColumn grey).fb =
      replay grey.fb (newWrites grey (R_DrawFuzzColumn byteEnv fuzzBottomColumn grey)) ∧
    (R_DrawFuzzColumn byteEnv fuzzBottomColumn grey).fb
        ((byteEnv.viewheight - 1) * byteEnv.byte_pitch + fuzzBottomColumn.x) =
      grey.fb ((byteEnv.viewheight - 1) * byteEnv.byte_pitch + fuzzBottomColumn.x) ∧
    0 ≤ (R_DrawFuzzColumn byteEnv fuzzBottomColumn grey).fuzzpos ∧
    (R_DrawFuzzColumn byteEnv fuzzBottomColumn grey).fuzzpos < FUZZTABLE :=
  ⟨by decide, by decide, by decide, by decide, by decide, by decide, by decide, by decide,
    by decide, by decide, by decide,
    R_DrawFuzzColumn_last_row byteEnv fuzzBottomColumn grey (by decide) (by decide)
      (by decide) (by decide) (by decide) (by decide) (by decide) (by decide) (by decide)
      (by decide) (by decide)⟩

/-- C13: the fuzz position is a cyclic counter that no call resets.  From a
position `p` with `0 <= p < FUZZTABLE = 50`, a call of `R_DrawFuzzColumn` that
writes `n` pixels leaves `fuzzpos = (p + n) mod 50`; after any sequence of
calls the position is `(p + total number of pixels written) mod 50`, so it stays
in `0 .. 49`, an index into the 50 entries of `fuzzoffset`. -/
theorem fuzzpos_cyclic (g : Env) (m : Machine)
    (h0 : 0 ≤ m.fuzzpos) (h1 : m.fuzzpos < FUZZTABLE) :
    (∀ dc : draw_column_vars_t,
      (R_DrawFuzzColumn g dc m).fuzzpos =
        (m.fuzzpos + ((newWrites m (R_DrawFuzzColumn g dc m)).length : Int)) % 50) ∧
    (∀ dcs : List draw_column_vars_t,
      (drawFuzzColumns g dcs m).fuzzpos =
        (m.fuzzpos + ((newWrites m (drawFuzzColumns g dcs m)).length : Int)) % 50 ∧
      0 ≤ (drawFuzzColumns g dcs m).fuzzpos ∧ (drawFuzzColumns g dcs m).fuzzpos ≤ 49) ∧
    (fuzzoffsetTable g.SCREENWIDTH).length = 50 := by
  refine ⟨?_, ?_, rfl⟩
  · intro dc
    obtain ⟨ws, hw, hp⟩ := R_DrawFuzzColumn_effect g dc m
    rw [hp, fuzzNext_iterate _ h0 h1]
    simp [newWrites, hw, FUZZTABLE]
  · intro dcs
    obtain ⟨ws, hw, hp⟩ := drawFuzzColumns_effect g dcs m
    rw [hp, fuzzNext_iterate _ h0 h1]
    simp only [newWrites, hw, List.drop_left, FUZZTABLE]
    refine ⟨trivial, ?_, ?_⟩ <;> omega

/-- Witness of `fuzzpos_cyclic`: the machine `grey`, whose fuzz position is 0. -/
theorem fuzzpos_cyclic_witness :
    0 ≤ grey.fuzzpos ∧ grey.fuzzpos < FUZZTABLE ∧
    (∀ dc : draw_column_vars_t,
      (R_DrawFuzzColumn byteEnv dc grey).fuzzpos =
        (grey.fuzzpos + ((newWrites grey (R_DrawFuzzColumn byteEnv dc grey)).length : Int))
          % 50) ∧
    (∀ dcs : List draw_column_vars_t,
      (drawFuzzColumns byteEnv dcs grey).fuzzpos =
        (grey.fuzzpos + ((newWrites grey (drawFuzzColumns byteEnv dcs grey)).length : Int))
          % 50 ∧
      0 ≤ (drawFuzzColumns byteEnv dcs grey).fuzzpos ∧
      (drawFuzzColumns byteEnv dcs grey).fuzzpos ≤ 49) ∧
    (fuzzoffsetTable byteEnv.SCREENWIDTH).length = 50 :=
  ⟨by decide, by decide, fuzzpos_cyclic byteEnv grey (by decide) (by decide)⟩

/-- C14: for every pixel `k` that `R_DrawFuzzColumn` writes, from a fuzz position
in `0 .. 49`, the unit written is the packed form of `fullcolormap[6*256 + s]`,
where `s` is the low 8 bits of the frame buffer unit stored, after the first `k`
writes of the same call, at the current position plus `fuzzoffset[fuzzpos]`;
that offset is `SCREENWIDTH` or `-SCREENWIDTH`, one screen row below or above
the current pixel in the same column.  The current position is the one the code
computes, `yl * byte_pitch + x + k * SCREENWIDTH` with the product in `int`, and
the frame buffer after the call is the one before it with the writes applied in
order. -/
theorem R_DrawFuzzColumn_values (g : Env) (dc : draw_column_vars_t) (m : Machine)
    (h0 : 0 ≤ m.fuzzpos) (h1 : m.fuzzpos < FUZZTABLE)
    (k : Nat) (hk : k < (newWrites m (R_DrawFuzzColumn g dc m)).length) :
    (fuzzoffset g ((m.fuzzpos + k) % 50) = g.SCREENWIDTH ∨
      fuzzoffset g ((m.fuzzpos + k) % 50) = -g.SCREENWIDTH) ∧
    (newWrites m (R_DrawFuzzColumn g dc m))[k]? =
      some (wrap32 (dc.yl * g.byte_pitch) + dc.x + k * g.SCREENWIDTH,
        pack (g.fullcolormap (6 * 256 +
          (replay m.fb ((newWrites m (R_DrawFuzzColumn g dc m)).take k)
            (wrap32 (dc.yl * g.byte_pitch) + dc.x + k * g.SCREENWIDTH
              + fuzzoffset g ((m.fuzzpos + k) % 50)) &&& 0xff)))) ∧
    (R_DrawFuzzColumn g dc m).fb = replay m.fb (newWrites m (R_DrawFuzzColumn g dc m)) := by
  have hpos : (0 : Int) ≤ (m.fuzzpos + k) % 50 ∧ (m.fuzzpos + k) % 50 < FUZZTABLE := by
    unfold FUZZTABLE; omega
  refine ⟨fuzzoffset_valid g _ hpos.1 hpos.2, ?_⟩
  by_cases h : fuzz_dc_yl dc < fuzz_dc_yh g dc
  · rw [R_DrawFuzzColumn_run g dc m h, newWrites_append] at hk ⊢
    rw [fuzzWrites_length] at hk
    refine ⟨?_, rfl⟩
    rw [fuzzWrites_get _ _ _ _ _ k hk, fuzzWrites_take _ _ _ _ _ k hk.le,
      fuzzNext_iterate _ h0 h1]
    simp only [fuzzUnit, FUZZTABLE, and_ff, Nat.mod_mod]
  · rw [R_DrawFuzzColumn_empty g dc m (not_lt.mp h)] at hk
    simp [newWrites] at hk

/-- Witness of `R_DrawFuzzColumn_values`: the third pixel (`k = 2`) of the
column `yl = 156`, `yh = 159`. -/
theorem R_DrawFuzzColumn_values_witness :
    0 ≤ grey.fuzzpos ∧ grey.fuzzpos < FUZZTABLE ∧
    2 < (newWrites grey (R_DrawFuzzColumn byteEnv fuzzBottomColumn grey)).length ∧
    (fuzzoffset byteEnv ((grey.fuzzpos + (2 : Nat)) % 50) = byteEnv.SCREENWIDTH ∨
      fuzzoffset byteEnv ((grey.fuzzpos + (2 : Nat)) % 50) = -byteEnv.SCREENWIDTH) ∧
    (newWrites grey (R_DrawFuzzColumn byteEnv fuzzBottomColumn grey))[2]? =
      some (wrap32 (fuzzBottomColumn.yl * byteEnv.byte_pitch) + fuzzBottomColumn.x
          + (2 : Nat) * byteEnv.SCREENWIDTH,
        pack (byteEnv.fullcolormap (6 * 256 +
          (replay grey.fb ((newWrites grey (R_DrawFuzzColumn byteEnv fuzzBottomColumn grey)).take 2)
            (wrap32 (fuzzBottomColumn.yl * byteEnv.byte_pitch) + fuzzBottomColumn.x
              + (2 : Nat) * byteEnv.SCREENWIDTH
              + fuzzoffset byteEnv ((grey.fuzzpos + (2 : Nat)) % 50)) &&& 0xff)))) ∧
    (R_DrawFuzzColumn byteEnv fuzzBottomColumn grey).fb =
      replay grey.fb (newWrites grey (R_DrawFuzzColumn byteEnv fuzzBottomColumn grey)) :=
  ⟨by decide, by decide, by decide,
    R_DrawFuzzColumn_values byteEnv fuzzBottomColumn grey (by decide) (by decide) 2 (by decide)⟩

/-- C15 (the code at the failing input): on a fuzz column with `yl = 0`,
`yh = 3`, in a view of 160 rows whose row stride is `SCREENWIDTH = 120`, from
the fuzz position 1, the first frame buffer read of `R_DrawFuzzColumn` is at
offset `-1 * 120 + 10`: row -1, above the visible area. -/
theorem R_DrawFuzzColumn_reads_above_top :
    0 ≤ fuzzTopColumn.yl ∧ fuzzTopColumn.yh ≤ byteEnv.viewheight - 1 ∧
    byteEnv.byte_pitch = byteEnv.SCREENWIDTH ∧
    R_DrawFuzzColumn_reads byteEnv fuzzTopColumn { grey with fuzzpos := 1 } =
      [-1 * 120 + 10, 2 * 120 + 10, 1 * 120 + 10] := by
  decide

/-- C16: if the clamped fuzz range is empty (after `yl = 0` is replaced by 1
and `yh = viewheight - 1` by `viewheight - 2`, `yl >= yh`), `R_DrawFuzzColumn`
is a no-op: it returns the machine it was given, so the frame buffer and the
fuzz position are unchanged and no store is logged. -/
theorem R_DrawFuzzColumn_empty_range (g : Env) (dc : draw_column_vars_t) (m : Machine)
    (hv1 : isInt32 (g.viewheight - 1)) (hv2 : isInt32 (g.viewheight - 2))
    (h : (if dc.yl = 0 then 1 else dc.yl) ≥
      (if dc.yh = g.viewheight - 1 then g.viewheight - 2 else dc.yh)) :
    R_DrawFuzzColumn g dc m = m ∧
    (R_DrawFuzzColumn g dc m).fb = m.fb ∧
    (R_DrawFuzzColumn g dc m).fuzzpos = m.fuzzpos ∧
    newWrites m (R_DrawFuzzColumn g dc m) = [] := by
  have e : R_DrawFuzzColumn g dc m = m := by
    apply R_DrawFuzzColumn_empty
    rw [fuzz_dc_yh_of_bottom g dc hv1 hv2]
    exact h
  rw [e]
  simp [newWrites]

/-- Witness of `R_DrawFuzzColumn_empty_range`: the column `yl = 0`, `yh = 1`,
whose clamped range is `1 .. 1`. -/
theorem R_DrawFuzzColumn_empty_range_witness :
    isInt32 (byteEnv.viewheight - 1) ∧ isInt32 (byteEnv.viewheight - 2) ∧
    (if fuzzEmptyColumn.yl = 0 then 1 else fuzzEmptyColumn.yl) ≥
      (if fuzzEmptyColumn.yh = byteEnv.viewheight - 1 then byteEnv.viewheight - 2
        else fuzzEmptyColumn.yh) ∧
    R_DrawFuzzColumn byteEnv fuzzEmptyColumn grey = grey ∧
    (R_DrawFuzzColumn byteEnv fuzzEmptyColumn grey).fb = grey.fb ∧
    (R_DrawFuzzColumn byteEnv fuzzEmptyColumn grey).fuzzpos = grey.fuzzpos ∧
    newWrites grey (R_DrawFuzzColumn byteEnv fuzzEmptyColumn grey) = [] :=
  ⟨by decide, by decide, by decide,
    R_DrawFuzzColumn_empty_range byteEnv fuzzEmptyColumn grey (by decide) (by decide)
      (by decide)⟩

/-- C17: `R_DrawTranslatedColumn` has the stepping and the bounds of
`R_DrawColumn` with one more table: for every parameter block in which every
texel index `frac_k >> FRACBITS` of the run lies in `0 .. 127`,
`R_DrawTranslatedColumn` with the tables `colormap` and `translation` leaves the
machine (frame buffer and stores, cell by cell and value by value) that
`R_DrawColumn` leaves with the composed table
`c[i] = colormap[translation[i]]`. -/
theorem R_DrawTranslatedColumn_refines (g : Env) (dc : draw_column_vars_t) (m : Machine)
    (hyl : isInt32 dc.yl) (hyh : isInt32 dc.yh)
    (hidx : ∀ k : Nat, (k : Int) ≤ dc.yh - dc.yl →
      0 ≤ fracAt g dc k >>> FRACBITS ∧ fracAt g dc k >>> FRACBITS ≤ 127) :
    R_DrawTranslatedColumn g dc m = R_DrawColumn g (composedColumn dc) m ∧
    (R_DrawTranslatedColumn g dc m).fb = (R_DrawColumn g (composedColumn dc) m).fb ∧
    newWrites m (R_DrawTranslatedColumn g dc m) =
      newWrites m (R_DrawColumn g (composedColumn dc) m) := by
  have key : R_DrawTranslatedColumn g dc m = R_DrawColumn g (composedColumn dc) m := by
    by_cases h : dc.yl < dc.yh
    · rw [R_DrawTranslatedColumn_run g dc m hyl hyh h,
        R_DrawColumn_run g (composedColumn dc) m hyl hyh h]
      have hw : columnWrites g.SCREENWIDTH dc.iscale (translatedUnit dc)
            (wrap32 (dc.yl * g.byte_pitch) + dc.x) (dc.texturemid + (dc.yl - g.centery) * dc.iscale)
            ((dc.yh - dc.yl).toNat + 1) =
          columnWrites g.SCREENWIDTH dc.iscale (columnUnit (composedColumn dc))
            (wrap32 (dc.yl * g.byte_pitch) + dc.x) (dc.texturemid + (dc.yl - g.centery) * dc.iscale)
            ((dc.yh - dc.yl).toNat + 1) := by
        apply columnWrites_congr
        intro k hk
        have e : dc.texturemid + (dc.yl - g.centery) * dc.iscale + (k : Int) * dc.iscale =
            dc.texturemid + (dc.yl - g.centery + (k : Int)) * dc.iscale := by ring
        have hk' := hidx k (by omega)
        unfold fracAt at hk'
        rw [e]
        simp only [translatedUnit, columnUnit, composedColumn,
          columnTexel_of_small _ hk'.1 hk'.2]
      show _ = (⟨_, _, _⟩ : Machine)
      simp only [composedColumn] at hw ⊢
      rw [hw]
    · have h1 : R_DrawTranslatedColumn g dc m = m := by
        unfold R_DrawTranslatedColumn; simp [not_lt.mp h]
      have h2 : R_DrawColumn g (composedColumn dc) m = m := by
        unfold R_DrawColumn; simp [composedColumn, not_lt.mp h]
      rw [h1, h2]
  rw [key]
  exact ⟨rfl, rfl, rfl⟩

/-- Witness of `R_DrawTranslatedColumn_refines`: a column of four pixels whose
texel indices are 5, 6, 7, 8. -/
theorem R_DrawTranslatedColumn_refines_witness :
    isInt32 translatedColumn.yl ∧ isInt32 translatedColumn.yh ∧
    (∀ k : Nat, (k : Int) ≤ translatedColumn.yh - translatedColumn.yl →
      0 ≤ fracAt env120 translatedColumn k >>> FRACBITS ∧
      fracAt env120 translatedColumn k >>> FRACBITS ≤ 127) ∧
    R_DrawTranslatedColumn env120 translatedColumn blank =
      R_DrawColumn env120 (composedColumn translatedColumn) blank ∧
    (R_DrawTranslatedColumn env120 translatedColumn blank).fb =
      (R_DrawColumn env120 (composedColumn translatedColumn) blank).fb ∧
    newWrites blank (R_DrawTranslatedColumn env120 translatedColumn blank) =
      newWrites blank (R_DrawColumn env120 (composedColumn translatedColumn) blank) :=
  have hidx : ∀ k : Nat, (k : Int) ≤ translatedColumn.yh - translatedColumn.yl →
      0 ≤ fracAt env120 translatedColumn k >>> FRACBITS ∧
      fracAt env120 translatedColumn k >>> FRACBITS ≤ 127 := by
    intro k hk
    have hk3 : k ≤ 3 := by
      have : translatedColumn.yh - translatedColumn.yl = 3 := by decide
      omega
    interval_cases k <;> decide
  ⟨by decide, by decide, hidx,
    R_DrawTranslatedColumn_refines env120 translatedColumn blank (by decide) (by decide) hidx⟩

/-- C18 (counterexample): the texel index of `R_DrawSpan` differs from the
two-field reference in two ways.  On a span with `xfrac = 0xFFFF`, `xstep = 0`,
`yfrac = 0`, `ystep = -(1 << 16)` the index of pixel 2 is 3969 (`u = 1`,
`v = 62`), while the reference gives 3968 (`u = 0`, `v = 62`): a carry out of
the `v` half of the position word has reached `u`.  On a span with
`yfrac = 0xFFFF`, `ystep = 1` the index of pixel 1 is 0, while the reference
gives 64 (`v = 1`): the position word drops the low 6 bits of the step. -/
theorem spanSpot_carry_into_u :
    spanSpotAt carrySpan 2 = 3969 ∧
    twoFieldSpot carrySpan.xfrac carrySpan.yfrac carrySpan.xstep carrySpan.ystep 2 = 3968 ∧
    (newWrites blank (R_DrawSpan env120 carrySpan blank))[2]? =
      some (2, pack (carrySpan.colormap (carrySpan.source 3969))) ∧
    pack (carrySpan.colormap (carrySpan.source 3969)) ≠
      pack (carrySpan.colormap (carrySpan.source 3968)) ∧
    spanSpotAt truncSpan 1 = 0 ∧
    twoFieldSpot truncSpan.xfrac truncSpan.yfrac truncSpan.xstep truncSpan.ystep 1 = 64 ∧
    (newWrites blank (R_DrawSpan env120 truncSpan blank))[1]? =
      some (1, pack (truncSpan.colormap (truncSpan.source 0))) ∧
    pack (truncSpan.colormap (truncSpan.source 0)) ≠
      pack (truncSpan.colormap (truncSpan.source 64)) := by
  decide

/-- C18 (amended): the bit-packed accumulator is a two-field accumulator up to
the precision and the carries of the packing.  For all `xfrac`, `yfrac`, `xstep`,
`ystep` and every pixel index `k` of the span, the texel index `R_DrawSpan` uses
is the index `(((xf + k*xs) >> 16) & 63) | ((((yf + k*ys) >> 16) & 63) << 6)` of
the two-field reference (sums in 32-bit arithmetic) run on the coordinates and
steps with their low 6 bits cleared (the position word keeps 10 fraction bits of
each) and with `64*c` added to `xfrac`, where
`c = (((yfrac >> 6) & 0xffff) + k * ((ystep >> 6) & 0xffff)) >> 16` counts the
carries out of the 16-bit `v` field in the first `k` steps.  For steps that are
multiples of 64 nothing is cleared from the sums: the index is
`(((xfrac + 64*c + k*xstep) >> 16) & 63) | ((((yfrac + k*ystep) >> 16) & 63) << 6)`,
its `v` part equals that of the reference, and it equals the reference
`(((xfrac + k*xstep) >> 16) & 63) | ((((yfrac + k*ystep) >> 16) & 63) << 6)`
whenever the carries do not reach the integer part of `u`:
`(((xfrac + k*xstep) >> 6) & 1023) + c < 1024`; the pixel written and the frame
buffer cell are then the packed `colormap[source[...]]` of the reference
index. -/
theorem R_DrawSpan_two_field (g : Env) (ds : draw_span_vars_t) (m : Machine) (k : Nat)
    (hk : k < (newWrites m (R_DrawSpan g ds m)).length) :
    spanSpotAt ds k =
      twoFieldSpot (clear6 ds.xfrac + 64 * (vCarries ds.yfrac ds.ystep k : Int))
        (clear6 ds.yfrac) (clear6 ds.xstep) (clear6 ds.ystep) k ∧
    (ds.xstep % 64 = 0 → ds.ystep % 64 = 0 →
      spanSpotAt ds k =
        twoFieldSpot (ds.xfrac + 64 * (vCarries ds.yfrac ds.ystep k : Int)) ds.yfrac
          ds.xstep ds.ystep k ∧
      spanSpotAt ds k / 64 = twoFieldSpot ds.xfrac ds.yfrac ds.xstep ds.ystep k / 64 ∧
      (((toU32 (wrap32 (ds.xfrac + (k : Int) * ds.xstep)) >>> 6) &&& 1023)
          + vCarries ds.yfrac ds.ystep k < 1024 →
        spanSpotAt ds k = twoFieldSpot ds.xfrac ds.yfrac ds.xstep ds.ystep k ∧
        (newWrites m (R_DrawSpan g ds m))[k]? =
          some (wrap32 (ds.y * g.byte_pitch) + ds.x1 + (k : Int),
            pack (ds.colormap (ds.source
              (twoFieldSpot ds.xfrac ds.yfrac ds.xstep ds.ystep k)))) ∧
        (R_DrawSpan g ds m).fb (wrap32 (ds.y * g.byte_pitch) + ds.x1 + (k : Int)) =
          pack (ds.colormap (ds.source
            (twoFieldSpot ds.xfrac ds.yfrac ds.xstep ds.ystep k))))) := by
  refine ⟨spanSpotAt_eq_cleared ds k, fun hx hy => ?_⟩
  have key := spanSpotAt_eq_carried ds k hx hy
  have hw := toU32_add_carries (ds.xfrac + (k : Int) * ds.xstep) (vCarries ds.yfrac ds.ystep k)
  have e1 : ds.xfrac + 64 * (vCarries ds.yfrac ds.ystep k : Int) + (k : Int) * ds.xstep =
      ds.xfrac + (k : Int) * ds.xstep + 64 * (vCarries ds.yfrac ds.ystep k : Int) := by ring
  have hU := toU32_lt (ds.xfrac + (k : Int) * ds.xstep)
  have key2 := key
  rw [twoFieldSpot_eq, e1, hw] at key2
  refine ⟨key, ?_, ?_⟩
  · rw [key2, twoFieldSpot_eq]
    omega
  · intro hc
    rw [toU32_wrap32, Nat.shiftRight_eq_div_pow,
      Nat.and_pow_two_sub_one_eq_mod _ 10] at hc
    have heq : spanSpotAt ds k = twoFieldSpot ds.xfrac ds.yfrac ds.xstep ds.ystep k := by
      rw [key2, twoFieldSpot_eq]
      omega
    rw [R_DrawSpan_newWrites, spanWrites_length] at hk
    rw [R_DrawSpan_newWrites, R_DrawSpan_run, spanWrites_get _ _ _ _ _ k hk, ← heq]
    refine ⟨rfl, rfl, ?_⟩
    dsimp only
    rw [replay_spanWrites_at _ _ _ _ _ _ k hk]
    rfl

/-- Witness of `R_DrawSpan_two_field`: the last pixel (`k = 63`) of a span that
moves half a texel per pixel in `u` and a quarter of a texel per pixel toward
smaller `v`; 62 carries have left the `v` field by then, and they do not reach
the integer part of `u`. -/
theorem R_DrawSpan_two_field_witness :
    63 < (newWrites blank (R_DrawSpan env120 backDiagonalSpan blank)).length ∧
    (spanSpotAt backDiagonalSpan 63 =
      twoFieldSpot (clear6 backDiagonalSpan.xfrac
          + 64 * (vCarries backDiagonalSpan.yfrac backDiagonalSpan.ystep 63 : Int))
        (clear6 backDiagonalSpan.yfrac) (clear6 backDiagonalSpan.xstep)
        (clear6 backDiagonalSpan.ystep) 63 ∧
    (backDiagonalSpan.xstep % 64 = 0 → backDiagonalSpan.ystep % 64 = 0 →
      spanSpotAt backDiagonalSpan 63 =
        twoFieldSpot (backDiagonalSpan.xfrac
            + 64 * (vCarries backDiagonalSpan.yfrac backDiagonalSpan.ystep 63 : Int))
          backDiagonalSpan.yfrac backDiagonalSpan.xstep backDiagonalSpan.ystep 63 ∧
      spanSpotAt backDiagonalSpan 63 / 64 =
        twoFieldSpot backDiagonalSpan.xfrac backDiagonalSpan.yfrac backDiagonalSpan.xstep
          backDiagonalSpan.ystep 63 / 64 ∧
      (((toU32 (wrap32 (backDiagonalSpan.xfrac
            + ((63 : Nat) : Int) * backDiagonalSpan.xstep)) >>> 6) &&& 1023)
          + vCarries backDiagonalSpan.yfrac backDiagonalSpan.ystep 63 < 1024 →
        spanSpotAt backDiagonalSpan 63 =
          twoFieldSpot backDiagonalSpan.xfrac backDiagonalSpan.yfrac backDiagonalSpan.xstep
            backDiagonalSpan.ystep 63 ∧
        (newWrites blank (R_DrawSpan env120 backDiagonalSpan blank))[63]? =
          some (wrap32 (backDiagonalSpan.y * env120.byte_pitch) + backDiagonalSpan.x1
              + ((63 : Nat) : Int),
            pack (backDiagonalSpan.colormap (backDiagonalSpan.source
              (twoFieldSpot backDiagonalSpan.xfrac backDiagonalSpan.yfrac
                backDiagonalSpan.xstep backDiagonalSpan.ystep 63)))) ∧
        (R_DrawSpan env120 backDiagonalSpan blank).fb
            (wrap32 (backDiagonalSpan.y * env120.byte_pitch) + backDiagonalSpan.x1
              + ((63 : Nat) : Int)) =
          pack (backDiagonalSpan.colormap (backDiagonalSpan.source
            (twoFieldSpot backDiagonalSpan.xfrac backDiagonalSpan.yfrac
              backDiagonalSpan.xstep backDiagonalSpan.ystep 63)))))) ∧
    backDiagonalSpan.xstep % 64 = 0 ∧ backDiagonalSpan.ystep % 64 = 0 ∧
    ((toU32 (wrap32 (backDiagonalSpan.xfrac + ((63 : Nat) : Int) * backDiagonalSpan.xstep))
        >>> 6) &&& 1023)
      + vCarries backDiagonalSpan.yfrac backDiagonalSpan.ystep 63 < 1024 ∧
    vCarries backDiagonalSpan.yfrac backDiagonalSpan.ystep 63 = 62 :=
  ⟨by decide,
    R_DrawSpan_two_field env120 backDiagonalSpan blank 63 (by decide),
    by decide, by decide, by decide, by decide⟩

/-- C19 (counterexample): for `frac = -1` the shift `frac >> FRACBITS` gives -1,
while the quotient of -1 by `2^FRACBITS` rounded toward zero is 0; the column
drawer then samples texel 127, not texel 0. -/
theorem shift_of_minus_one :
    (-1 : Int) >>> FRACBITS = -1 ∧ Int.tdiv (-1) (2 ^ FRACBITS) = 0 ∧
    columnTexel (-1) = 127 := by
  decide

/-- C19 (amended): the texel index `frac >> FRACBITS` (arithmetic right shift of
a signed fixed-point value) is the quotient of `frac` by `2^FRACBITS` rounded
toward minus infinity (floor); it equals the quotient rounded toward zero
exactly when `frac >= 0` or `frac` is a multiple of `2^FRACBITS`.  So the index
that `R_DrawColumn` masks and the index with which `R_DrawTranslatedColumn`
reads `source` are the floor quotient. -/
theorem shift_is_floor (frac : Int) :
    frac >>> FRACBITS = Int.fdiv frac (2 ^ FRACBITS) ∧
    (frac >>> FRACBITS = Int.tdiv frac (2 ^ FRACBITS) ↔
      (0 ≤ frac ∨ frac % 2 ^ FRACBITS = 0)) ∧
    columnTexel frac = toU32 (Int.fdiv frac (2 ^ FRACBITS)) &&& 127 ∧
    ∀ dc : draw_column_vars_t,
      translatedUnit dc frac =
        pack (dc.colormap (dc.translation (dc.source (Int.fdiv frac (2 ^ FRACBITS))))) := by
  have hfl := (shift_floor_trunc frac).1
  refine ⟨hfl, (shift_floor_trunc frac).2, ?_, fun dc => ?_⟩
  · unfold columnTexel; rw [hfl]
  · unfold translatedUnit; rw [hfl]

/-- C20: for every span parameter block and every pixel `k` that `R_DrawSpan`
writes, the texel index `spot = (position >> 26) | ((position >> 4) & 0x0fc0)`
used for the pixel is below 4096, the size of a 64 by 64 tile, and the pixel
written is the packed `colormap[source[spot]]`.  The frame buffer after the
call is the one before it with the writes applied in order, and the cell of
pixel `k` holds that unit. -/
theorem R_DrawSpan_spot_in_tile (g : Env) (ds : draw_span_vars_t) (m : Machine) (k : Nat)
    (hk : k < (newWrites m (R_DrawSpan g ds m)).length) :
    spanSpotAt ds k < 4096 ∧
    spanSpotAt ds k =
      (spanPosition (packUV ds.xfrac ds.yfrac) (packUV ds.xstep ds.ystep) k >>> 26) |||
        ((spanPosition (packUV ds.xfrac ds.yfrac) (packUV ds.xstep ds.ystep) k >>> 4)
          &&& 0x0fc0) ∧
    ((newWrites m (R_DrawSpan g ds m))[k]?).map Prod.snd =
      some (pack (ds.colormap (ds.source (spanSpotAt ds k)))) ∧
    (R_DrawSpan g ds m).fb = replay m.fb (newWrites m (R_DrawSpan g ds m)) ∧
    (R_DrawSpan g ds m).fb (wrap32 (ds.y * g.byte_pitch) + ds.x1 + (k : Int)) =
      pack (ds.colormap (ds.source (spanSpotAt ds k))) := by
  have hfb := logged_fb _ _ (R_DrawSpan_logged g ds m)
  have hcell : (R_DrawSpan g ds m).fb (wrap32 (ds.y * g.byte_pitch) + ds.x1 + (k : Int)) =
      pack (ds.colormap (ds.source (spanSpotAt ds k))) := by
    rw [R_DrawSpan_newWrites, spanWrites_length] at hk
    rw [R_DrawSpan_run]
    dsimp only
    rw [replay_spanWrites_at _ _ _ _ _ _ k hk]
    rfl
  refine ⟨?_, rfl, ?_, hfb, hcell⟩
  · unfold spanSpotAt
    rw [spanSpot_eq _ (spanPosition_lt _ _ _)]
    have := spanPosition_lt (packUV ds.xfrac ds.yfrac) (packUV ds.xstep ds.ystep) k
    omega
  · rw [R_DrawSpan_newWrites, spanWrites_length] at hk
    rw [R_DrawSpan_newWrites, spanWrites_get _ _ _ _ _ k hk]
    rfl

/-- Witness of `R_DrawSpan_spot_in_tile`: pixel 2 of the span `carrySpan`, whose
`v` step is negative. -/
theorem R_DrawSpan_spot_in_tile_witness :
    2 < (newWrites blank (R_DrawSpan env120 carrySpan blank)).length ∧
    spanSpotAt carrySpan 2 < 4096 ∧
    spanSpotAt carrySpan 2 =
      (spanPosition (packUV carrySpan.xfrac carrySpan.yfrac)
          (packUV carrySpan.xstep carrySpan.ystep) 2 >>> 26) |||
        ((spanPosition (packUV carrySpan.xfrac carrySpan.yfrac)
          (packUV carrySpan.xstep carrySpan.ystep) 2 >>> 4) &&& 0x0fc0) ∧
    ((newWrites blank (R_DrawSpan env120 carrySpan blank))[2]?).map Prod.snd =
      some (pack (carrySpan.colormap (carrySpan.source (spanSpotAt carrySpan 2)))) ∧
    (R_DrawSpan env120 carrySpan blank).fb =
      replay blank.fb (newWrites blank (R_DrawSpan env120 carrySpan blank)) ∧
    (R_DrawSpan env120 carrySpan blank).fb
        (wrap32 (carrySpan.y * env120.byte_pitch) + carrySpan.x1 + ((2 : Nat) : Int)) =
      pack (carrySpan.colormap (carrySpan.source (spanSpotAt carrySpan 2))) :=
  ⟨by decide, R_DrawSpan_spot_in_tile env120 carrySpan blank 2 (by decide)⟩

end GBADoom
